import Mathlib

/-!
# Verification of the `linespy` game core

A shallow embedding of the rules engine in `src/linespy` (a "Color Lines"
variant): the board data model (`board.py`, `cell.py`, `constants.py`), the
selection state machine (`Board.handle_action`), the path router
(`Board._evaluate_path`), the line matcher (`Board._evaluate_lines`) and the
ball spawner (`Board._add_balls`), together with theorems settling the
specification claims about them.

Representation choices:
* the flat `Board.cells` list of mutable `Cell` objects is represented by an
  occupancy map `colors : Pos → Option BallColor`; a Python `Cell` object is
  identified by its `(column, row)` coordinates, which is faithful because the
  cells of a board are created once, with pairwise distinct coordinates, and
  never aliased from outside the board;
* the transient search fields `Cell.cost` / `Cell.previous_cell` are reset at
  the start of every `_evaluate_path` call and read nowhere else, so they live
  in a `SearchState` local to the search instead of on the board;
* Python exceptions (`KeyError` in `Board.__getitem__`,
  `NoMoreFreeCellsError` in `_add_random_ball`) are modelled with `Option`
  results (`none` = the call raises);
* the global `random` module is modelled by an injected stream of naturals
  (`Rng`); `random.choice(xs)` takes the element at index `stream value %
  xs.length`, which ranges over exactly the elements `choice` can return.
-/

set_option maxHeartbeats 1000000

namespace Linespy

/-- Ball colors, from `linespy/constants.py` (`class BallColor(IntEnum)`).
Only equality of colors matters to the board logic, so the numeric pixel
values are dropped. -/
inductive BallColor
  | RED
  | GREEN
  | BLUE
  | MAGENTA
  | CYAN
  | YELLOW
  | BLACK
deriving DecidableEq

/-- The color palette `[c for c in BallColor]`, in declaration order. -/
def allColors : List BallColor :=
  [.RED, .GREEN, .BLUE, .MAGENTA, .CYAN, .YELLOW, .BLACK]

/-- A board position `(column, row)`; both coordinates are 1-based, following
`linespy/cell.py` (`Cell.column`, `Cell.row`). -/
abbrev Pos := Nat × Nat

/-- Pointwise update of a map at one position, the model of one assignment to
a field of a `Cell` object. -/
def upd {α : Type} (f : Pos → α) (p : Pos) (v : α) : Pos → α :=
  fun q => if q = p then v else f q

/-- The game board, from `linespy/board.py`. `colors (column, row)` is the
`color` attribute of the cell at that position (`none` = empty cell). -/
structure Board where
  columns : Nat
  rows : Nat
  colors : Pos → Option BallColor
  selected_cell : Option Pos := none
  score : Nat := 0

/-- The bounds check of `Board.__getitem__`: both coordinates must lie in
`[1, columns] × [1, rows]`, otherwise the Python method raises `KeyError`. -/
def Board.inBounds (b : Board) (p : Pos) : Prop :=
  1 ≤ p.1 ∧ p.1 ≤ b.columns ∧ 1 ≤ p.2 ∧ p.2 ≤ b.rows

instance (b : Board) (p : Pos) : Decidable (b.inBounds p) :=
  inferInstanceAs (Decidable (1 ≤ p.1 ∧ p.1 ≤ b.columns ∧ 1 ≤ p.2 ∧ p.2 ≤ b.rows))

/-- `Board.create`: a board of the given dimensions with every cell empty,
no selection and zero score (`board.py`, classmethod `create`). -/
def Board.create (columns rows : Nat) : Board :=
  { columns := columns, rows := rows, colors := fun _ => none }

/-- The positions of the cells of the flat `Board.cells` list, in list order:
index `i` of the list holds the cell at column `i % columns + 1`,
row `i / columns + 1` (`board.py`, `create` and `__getitem__`). -/
def Board.allPositions (b : Board) : List Pos :=
  (List.range (b.rows * b.columns)).map
    (fun i => (i % b.columns + 1, i / b.columns + 1))

/-- `[cell for cell in self.cells if cell.is_empty]` (`_add_random_ball`). -/
def Board.freeCells (b : Board) : List Pos :=
  b.allPositions.filter (fun p => (b.colors p).isNone)

/-- Number of occupied cells of the board. -/
def Board.ballCount (b : Board) : Nat :=
  b.allPositions.countP (fun p => (b.colors p).isSome)

/-- Number of empty cells of the board. -/
def Board.emptyCount (b : Board) : Nat := b.freeCells.length

/-- Board events, from `linespy/events.py`.

`MoveBall` is declared in `events.py` with fields `from_cell` and `to_cell`,
but the only construction site, `Board._handle_ball_move` in `board.py`, calls
`MoveBall(path=path)` with the full routed path (and the specification
documents the event as `MoveBall(path)`).  The two files contradict each
other: the Python call raises `TypeError` on every successful move, so the
program as written never produces any `MoveBall` value at all — that error
path is modelled faithfully by `Board.handle_ball_move_src` and
`Board.handle_action_src` below.  The variant here follows the construction
site in `board.py` (the intent the specification documents), carrying the
ordered cell sequence of the route; since no `MoveBall` value is ever
successfully constructed in the source, this payload misrepresents no value
the program produces. -/
inductive Event
  | AddBall (cell : Pos)
  | GameOver
  | SelectBall (cell : Pos)
  | DeselectBall (cell : Pos)
  | MoveBall (path : List Pos)
  | LineCompleted (cells : List Pos)
  | UpdateScore (score : Nat)
  | ImpossibleMove
deriving DecidableEq

/-- The stream of values drawn from the `random` module: entry `n` decides the
`n`-th pending `random.choice`, as an index into the choice list. -/
def Rng : Type := Nat → Nat

/-- `random.choice(xs)`: the element of `xs` at the stream-supplied index,
reduced modulo the length.  As the stream varies this ranges over exactly the
elements `random.choice` can return. -/
def rngChoice {α : Type} (xs : List α) (dflt : α) (k : Nat) : α :=
  xs.getD (k % xs.length) dflt

/-- `Board._add_random_ball`: pick a random free cell and a random color, put
the color there.  Returns `none` when the board is full (the Python code
raises `NoMoreFreeCellsError`).  Consumes two stream values. -/
def Board.add_random_ball (b : Board) (r : Rng) : Option (Board × Pos × Rng) :=
  let free := b.freeCells
  if free.isEmpty then none
  else
    let target := rngChoice free (0, 0) (r 0)
    let color := rngChoice allColors .RED (r 1)
    some ({ b with colors := upd b.colors target (some color) }, target,
      fun n => r (n + 2))

/-- The loop body of `Board._add_balls`, unrolled on the remaining iteration
count of `for _ in range(3)`: add a random ball, emit `AddBall`, and if no
empty cell is left emit `GameOver` and stop. -/
def addBallsAux : Nat → Board → Rng → Option (List Event × Board × Rng)
  | 0, b, r => some ([], b, r)
  | k + 1, b, r =>
    match b.add_random_ball r with
    | none => none
    | some (b', cell, r') =>
      if b'.freeCells.isEmpty then some ([.AddBall cell, .GameOver], b', r')
      else
        match addBallsAux k b' r' with
        | none => none
        | some (evs, b'', r'') => some (.AddBall cell :: evs, b'', r'')

/-- `Board._add_balls`: adds 3 random balls, stopping early with `GameOver`
when the board fills up. -/
def Board.add_balls (b : Board) (r : Rng) : Option (List Event × Board × Rng) :=
  addBallsAux 3 b r

/-- `Board.handle_initialization`: one spawner invocation. -/
def Board.handle_initialization (b : Board) (r : Rng) :
    Option (List Event × Board × Rng) :=
  b.add_balls r

/-! ## The path router (`Board._evaluate_path`) -/

/-- The transient per-cell search data of `_evaluate_path`: the `cost` and
`previous_cell` attributes of the cells, plus the work list `stack`.  The
Python code appends to and pops from the end of its list; the embedding
pushes to and pops from the head, which is the same LIFO discipline. -/
structure SearchState where
  cost : Pos → Option Nat
  prev : Pos → Option Pos
  stack : List Pos

/-- The inner function `visit_cell(cell, previous_cell)` of `_evaluate_path`:
relax an empty cell whose recorded cost is absent or worse than
`previous_cell.cost + 1`, recording cost and predecessor and pushing it on the
work list.  The source asserts `previous_cell.cost is not None`; the `none`
branch of the outer match is unreachable along the algorithm's calls. -/
def visitCell (b : Board) (cell previous_cell : Pos) (s : SearchState) :
    SearchState :=
  match s.cost previous_cell with
  | none => s
  | some cp =>
    if (b.colors cell).isNone then
      let relax : Bool :=
        match s.cost cell with
        | none => true
        | some k => decide (cp + 1 < k)
      if relax then
        { cost := upd s.cost cell (some (cp + 1)),
          prev := upd s.prev cell (some previous_cell),
          stack := cell :: s.stack }
      else s
    else s

/-- The four neighbor positions probed by the loop body of `_evaluate_path`,
in source order: up, down, left, right.  (With `Nat` coordinates the up/left
positions truncate at 0, which is out of bounds and skipped, exactly as the
`KeyError` branch skips them.) -/
def nbrs (p : Pos) : List Pos :=
  [(p.1, p.2 - 1), (p.1, p.2 + 1), (p.1 - 1, p.2), (p.1 + 1, p.2)]

/-- One neighbor probe: `self[...]` raises `KeyError` out of bounds, which
the source catches and ignores; in bounds it calls `visit_cell`. -/
def visitIfInBounds (b : Board) (last : Pos) (s : SearchState) (q : Pos) :
    SearchState :=
  if b.inBounds q then visitCell b q last s else s

/-- The body of one iteration of the `while stack` loop: probe the four
neighbors of the popped cell in source order. -/
def visitNeighbors (b : Board) (last : Pos) (s : SearchState) : SearchState :=
  (nbrs last).foldl (visitIfInBounds b last) s

/-- The `while stack:` loop of `_evaluate_path`, with an explicit fuel bound.
`Board.fuelBound` is proven to dominate the loop's termination measure, so
with that fuel the loop always reaches an empty work list. -/
def searchLoop (b : Board) : Nat → SearchState → SearchState
  | 0, s => s
  | fuel + 1, s =>
    match s.stack with
    | [] => s
    | last :: rest => searchLoop b fuel (visitNeighbors b last { s with stack := rest })

/-- The path-reconstruction loop of `_evaluate_path`: walk `previous_cell`
links backward from the target, building the list front to back.  The fuel
dominates the chain length (costs strictly decrease along predecessor
links). -/
def buildPath (pr : Pos → Option Pos) : Nat → Pos → List Pos
  | 0, p => [p]
  | fuel + 1, p =>
    match pr p with
    | none => [p]
    | some q => buildPath pr fuel q ++ [p]

/-- Fuel that dominates the search loop's termination measure (the measure is
at most `(N + 1) · N · N + 1` for `N` cells). -/
def Board.fuelBound (b : Board) : Nat := (b.columns * b.rows + 1) ^ 3

/-- `Board._evaluate_path`: reset the search fields, seed the origin with cost
0, run the work-list relaxation loop, and if the target acquired a
predecessor, reconstruct the path and swap the colors of origin and target
(the move itself); otherwise return the empty path and the unchanged board.
The source's `assert path[0] is from_cell` is proven as a theorem below
rather than embedded. -/
def Board.evaluate_path (b : Board) (from_cell to_cell : Pos) :
    List Pos × Board :=
  let s0 : SearchState :=
    { cost := upd (fun _ => none) from_cell (some 0),
      prev := fun _ => none,
      stack := [from_cell] }
  let s := searchLoop b b.fuelBound s0
  match s.prev to_cell with
  | none => ([], b)
  | some _ =>
    let path := buildPath s.prev (b.columns * b.rows) to_cell
    (path,
      { b with
        colors := upd (upd b.colors to_cell (b.colors from_cell)) from_cell none })

/-! ## The line matcher (`Board._evaluate_lines`) -/

/-- Modelled from the spec: the constant `MIN_BALLS_IN_LINE` is imported by
`board.py` from `linespy.constants` but missing from the sources; the
specification fixes the minimum completed-line length at 5 ("A run qualifies
as a completed line when its length reaches a minimum threshold (5 in the
reference configuration)"). -/
def MIN_BALLS_IN_LINE : Nat := 5

/-- The upward scan of `_evaluate_lines` (`for row in range(cell.row - 1, 0,
-1)`), called with start row `cell.row - 1`: collect cells of the landing
cell's color walking toward row 1, stopping at the first mismatch; the result
is in ascending row order, as produced by the source's `insert(0, ...)`. -/
def scanUp (b : Board) (col : Nat) (c : Option BallColor) : Nat → List Pos
  | 0 => []
  | row + 1 =>
    if b.colors (col, row + 1) = c then scanUp b col c row ++ [(col, row + 1)]
    else []

/-- Body of the downward scan, on fuel `rows + 1 - row`. -/
def scanDownAux (b : Board) (col : Nat) (c : Option BallColor) :
    Nat → Nat → List Pos
  | 0, _ => []
  | fuel + 1, row =>
    if b.colors (col, row) = c then (col, row) :: scanDownAux b col c fuel (row + 1)
    else []

/-- The downward scan of `_evaluate_lines` (`for row in range(cell.row + 1,
self.rows + 1)`), called with start row `cell.row + 1`. -/
def scanDown (b : Board) (col : Nat) (c : Option BallColor) (row : Nat) :
    List Pos :=
  scanDownAux b col c (b.rows + 1 - row) row

/-- The leftward scan of `_evaluate_lines` (`for column in range(cell.column -
1, 0, -1)`), result in ascending column order. -/
def scanLeft (b : Board) (row : Nat) (c : Option BallColor) : Nat → List Pos
  | 0 => []
  | col + 1 =>
    if b.colors (col + 1, row) = c then scanLeft b row c col ++ [(col + 1, row)]
    else []

/-- Body of the rightward scan, on fuel `columns + 1 - col`. -/
def scanRightAux (b : Board) (row : Nat) (c : Option BallColor) :
    Nat → Nat → List Pos
  | 0, _ => []
  | fuel + 1, col =>
    if b.colors (col, row) = c then (col, row) :: scanRightAux b row c fuel (col + 1)
    else []

/-- The rightward scan of `_evaluate_lines` (`for column in range(cell.column
+ 1, self.columns + 1)`). -/
def scanRight (b : Board) (row : Nat) (c : Option BallColor) (col : Nat) :
    List Pos :=
  scanRightAux b row c (b.columns + 1 - col) col

/-- The `v_line` of `_evaluate_lines`: the maximal vertical run of the landing
cell's color through the landing cell, in ascending row order. -/
def Board.vLine (b : Board) (cell : Pos) : List Pos :=
  scanUp b cell.1 (b.colors cell) (cell.2 - 1) ++ [cell] ++
    scanDown b cell.1 (b.colors cell) (cell.2 + 1)

/-- The `h_line` of `_evaluate_lines`: the maximal horizontal run of the
landing cell's color through the landing cell, in ascending column order. -/
def Board.hLine (b : Board) (cell : Pos) : List Pos :=
  scanLeft b cell.2 (b.colors cell) (cell.1 - 1) ++ [cell] ++
    scanRight b cell.2 (b.colors cell) (cell.1 + 1)

/-- `Board._evaluate_lines`: the qualifying horizontal run (if any) followed
by the qualifying vertical run (if any); runs shorter than
`MIN_BALLS_IN_LINE` contribute nothing. -/
def Board.evaluate_lines (b : Board) (cell : Pos) : List Pos :=
  (if MIN_BALLS_IN_LINE ≤ (b.hLine cell).length then b.hLine cell else []) ++
    (if MIN_BALLS_IN_LINE ≤ (b.vLine cell).length then b.vLine cell else [])

/-- The clearing loop `for cell in formed_lines: cell.color = None`. -/
def clearCells (f : Pos → Option BallColor) (l : List Pos) :
    Pos → Option BallColor :=
  l.foldl (fun g p => upd g p none) f

/-! ## Move handling and the selection state machine -/

/-- `Board._handle_ball_move` under the intended (construction-site) event
semantics: route the ball; on failure a single `ImpossibleMove`; on success
a `MoveBall` carrying the path, then either the line-clearing events
(`LineCompleted`, `UpdateScore`) or the spawner's events.  The source as
written instead raises `TypeError` at the `MoveBall` construction on every
successful route — see `Board.handle_ball_move_src` below for the faithful
error path. -/
def Board.handle_ball_move (b : Board) (from_cell to_cell : Pos) (r : Rng) :
    Option (List Event × Board × Rng) :=
  let pr := b.evaluate_path from_cell to_cell
  let path := pr.1
  let b1 := pr.2
  if path = [] then some ([.ImpossibleMove], b1, r)
  else
    let formed := b1.evaluate_lines to_cell
    if formed = [] then
      match b1.add_balls r with
      | none => none
      | some (evs, b2, r') => some (.MoveBall path :: evs, b2, r')
    else
      some ([.MoveBall path, .LineCompleted formed,
          .UpdateScore (b1.score + formed.length)],
        { b1 with
          colors := clearCells b1.colors formed
          score := b1.score + formed.length }, r)

/-- `Board.handle_action` under the intended event semantics: the selection
state machine.  `none` models the `KeyError` of `self[column, row]` on
out-of-bounds input (and the `NoMoreFreeCellsError` the spawner could
raise, which is proven unreachable from a successful move).  The selection
branches and the `ImpossibleMove` branch coincide with the source as
written (they construct no `MoveBall`); the successful-move branch is the
intent, while the source raises `TypeError` there — see
`Board.handle_action_src` below.  Cell identity (`self.selected_cell is cell`) is
position equality, faithful because a board's cells have pairwise distinct
coordinates and `selected_cell` always references one of the board's own
cells. -/
def Board.handle_action (b : Board) (column row : Nat) (r : Rng) :
    Option (List Event × Board × Rng) :=
  if b.inBounds (column, row) then
    let cell : Pos := (column, row)
    if (b.colors cell).isNone then
      match b.selected_cell with
      | none => some ([], b, r)
      | some s =>
        match b.handle_ball_move s cell r with
        | none => none
        | some (events, b', r') =>
          if events = [.ImpossibleMove] then some (events, b', r')
          else some (events, { b' with selected_cell := none }, r')
    else
      match b.selected_cell with
      | none =>
        some ([.SelectBall cell], { b with selected_cell := some cell }, r)
      | some s =>
        if s = cell then
          some ([.DeselectBall s], { b with selected_cell := none }, r)
        else
          some ([.DeselectBall s, .SelectBall cell],
            { b with selected_cell := some cell }, r)
  else none

/-! ## The source as written: the `TypeError` of the `MoveBall` construction

`Board.handle_ball_move` and `Board.handle_action` above give the
intended (construction-site) semantics that the specification documents.
The source itself never gets that far: `events.py` declares
`MoveBall(from_cell, to_cell)`, so the call `MoveBall(path=path)` at
`board.py` line 146 raises `TypeError` on every routed move, after
`_evaluate_path` has already swapped the colors (lines 236-237) and before
the line evaluation (lines 148-165) or the deselection in `handle_action`
(line 115) can run.  The definitions below model the program as written,
with the uncaught exception carrying the board state live at the moment it
propagates. -/

/-- Outcome of a call into `board.py` that may end in an uncaught Python
exception: `ok` carries the emitted events and the updated state;
`keyError` models the `KeyError` of `Board.__getitem__`, raised before any
mutation; `typeError` models the `TypeError` raised by the
`MoveBall(path=path)` construction at `board.py` line 146, carrying the
board state live at the moment the exception propagates. -/
inductive PyOutcome
  | ok (evs : List Event) (b : Board) (r : Rng)
  | keyError
  | typeError (b : Board) (r : Rng)

/-- `Board._handle_ball_move` as the source executes it: a failed route
returns `[ImpossibleMove()]` exactly as in `Board.handle_ball_move`, but a
successful route reaches the `MoveBall(path=path)` construction, which
raises `TypeError` before the line evaluation at `board.py` lines 148-165
can run.  The carried board is the state after `_evaluate_path`'s color
swap (lines 236-237). -/
def Board.handle_ball_move_src (b : Board) (from_cell to_cell : Pos)
    (r : Rng) : PyOutcome :=
  if (b.evaluate_path from_cell to_cell).1 = [] then
    .ok [.ImpossibleMove] (b.evaluate_path from_cell to_cell).2 r
  else .typeError (b.evaluate_path from_cell to_cell).2 r

/-- `Board.handle_action` as the source executes it: identical to
`Board.handle_action` except that a routed move propagates the `TypeError`
of the `MoveBall` construction instead of completing — in particular the
deselection at `board.py` line 115 is never reached, so the exception
carries `selected_cell` unchanged. -/
def Board.handle_action_src (b : Board) (column row : Nat) (r : Rng) :
    PyOutcome :=
  if b.inBounds (column, row) then
    let cell : Pos := (column, row)
    if (b.colors cell).isNone then
      match b.selected_cell with
      | none => .ok [] b r
      | some s =>
        match b.handle_ball_move_src s cell r with
        | .ok events b' r' =>
          if events = [.ImpossibleMove] then .ok events b' r'
          else .ok events { b' with selected_cell := none } r'
        | .keyError => .keyError
        | .typeError b' r' => .typeError b' r'
    else
      match b.selected_cell with
      | none =>
        .ok [.SelectBall cell] { b with selected_cell := some cell } r
      | some s =>
        if s = cell then
          .ok [.DeselectBall s] { b with selected_cell := none } r
        else
          .ok [.DeselectBall s, .SelectBall cell]
            { b with selected_cell := some cell } r
  else .keyError

/-! ## Semantic path predicates -/

/-- Orthogonal (4-directional) adjacency of two positions. -/
def adj (p q : Pos) : Prop :=
  (p.1 = q.1 ∧ (p.2 = q.2 + 1 ∨ q.2 = p.2 + 1)) ∨
    (p.2 = q.2 ∧ (p.1 = q.1 + 1 ∨ q.1 = p.1 + 1))

instance (p q : Pos) : Decidable (adj p q) :=
  inferInstanceAs (Decidable ((p.1 = q.1 ∧ (p.2 = q.2 + 1 ∨ q.2 = p.2 + 1)) ∨
    (p.2 = q.2 ∧ (p.1 = q.1 + 1 ∨ q.1 = p.1 + 1))))

/-- Manhattan distance between two positions. -/
def manhattan (p q : Pos) : Nat :=
  (p.1 - q.1) + (q.1 - p.1) + (p.2 - q.2) + (q.2 - p.2)

/-- `l` is a route for a move on board `b` from `src` to `dst`: a nonempty
sequence of in-bounds cells starting at `src` and ending at `dst`, with
consecutive cells orthogonally adjacent and every cell after the origin
empty. -/
def isRoute (b : Board) (l : List Pos) (src dst : Pos) : Prop :=
  l ≠ [] ∧ l.head? = some src ∧ l.getLast? = some dst ∧
    List.Chain' adj l ∧ b.inBounds src ∧
    ∀ p ∈ l.tail, b.colors p = none ∧ b.inBounds p

/-- `dst` can be reached from `src` through empty cells. -/
def reach (b : Board) (src dst : Pos) : Prop :=
  ∃ l, isRoute b l src dst

/-- The boards reachable from a fresh board by initialization and actions
that complete without a Python exception. -/
inductive ReachableBoard : Board → Prop
  | created (columns rows : Nat) : ReachableBoard (Board.create columns rows)
  | init {b : Board} {r : Rng} {evs : List Event} {b' : Board} {r' : Rng} :
      ReachableBoard b → b.handle_initialization r = some (evs, b', r') →
      ReachableBoard b'
  | act {b : Board} {column row : Nat} {r : Rng} {evs : List Event}
      {b' : Board} {r' : Rng} :
      ReachableBoard b → b.handle_action column row r = some (evs, b', r') →
      ReachableBoard b'

/-- The selection invariant: a selected cell always holds a ball. -/
def SelInv (b : Board) : Prop :=
  ∀ s, b.selected_cell = some s → (b.colors s).isSome

/-! ## Basic lemmas: updates, the cell list, counting -/

@[simp] theorem upd_self {α : Type} (f : Pos → α) (p : Pos) (v : α) :
    upd f p v p = v := by
  simp [upd]

theorem upd_ne {α : Type} (f : Pos → α) {p q : Pos} (v : α) (h : q ≠ p) :
    upd f p v q = f q := by
  simp [upd, h]

theorem length_allPositions (b : Board) :
    b.allPositions.length = b.columns * b.rows := by
  simp [Board.allPositions, Nat.mul_comm]

theorem mem_allPositions {b : Board} {p : Pos} :
    p ∈ b.allPositions ↔ b.inBounds p := by
  unfold Board.inBounds
  constructor
  · intro h
    simp only [Board.allPositions, List.mem_map, List.mem_range] at h
    obtain ⟨i, hi, rfl⟩ := h
    have hc : 0 < b.columns := by
      rcases Nat.eq_zero_or_pos b.columns with h0 | h0
      · rw [h0, Nat.mul_zero] at hi
        omega
      · exact h0
    refine ⟨Nat.le_add_left 1 _, ?_, Nat.le_add_left 1 _, ?_⟩
    · have := Nat.mod_lt i hc
      omega
    · have : i / b.columns < b.rows := by
        exact Nat.div_lt_iff_lt_mul hc |>.mpr (by omega)
      omega
  · intro h
    obtain ⟨h1, h2, h3, h4⟩ := h
    simp only [Board.allPositions, List.mem_map, List.mem_range]
    refine ⟨(p.1 - 1) + (p.2 - 1) * b.columns, ?_, ?_⟩
    · have hc : 0 < b.columns := by omega
      calc (p.1 - 1) + (p.2 - 1) * b.columns
          < b.columns + (p.2 - 1) * b.columns := by omega
        _ = (p.2 - 1 + 1) * b.columns := by ring
        _ = p.2 * b.columns := by congr 1; omega
        _ ≤ b.rows * b.columns := Nat.mul_le_mul_right _ h4
        _ = b.rows * b.columns := rfl
    · have hc : 0 < b.columns := by omega
      have hlt : p.1 - 1 < b.columns := by omega
      have hmod : ((p.1 - 1) + (p.2 - 1) * b.columns) % b.columns = p.1 - 1 := by
        rw [Nat.add_mul_mod_self_right, Nat.mod_eq_of_lt hlt]
      have hdiv : ((p.1 - 1) + (p.2 - 1) * b.columns) / b.columns = p.2 - 1 := by
        rw [Nat.add_mul_div_right _ _ hc, Nat.div_eq_of_lt hlt]
        omega
      have hp : p = (p.1, p.2) := rfl
      rw [hmod, hdiv]
      rw [hp]
      congr 1 <;> omega

theorem allPositions_nodup (b : Board) : b.allPositions.Nodup := by
  refine List.Nodup.map_on ?_ (List.nodup_range _)
  intro i hi j hj hij
  simp only [List.mem_range] at hi hj
  have h1 : i % b.columns = j % b.columns := by
    have := congrArg Prod.fst hij
    simpa using this
  have h2 : i / b.columns = j / b.columns := by
    have := congrArg Prod.snd hij
    simpa using this
  calc i = b.columns * (i / b.columns) + i % b.columns := (Nat.div_add_mod _ _).symm
    _ = b.columns * (j / b.columns) + j % b.columns := by rw [h1, h2]
    _ = j := Nat.div_add_mod _ _

theorem inBounds_of_cost_mem {b : Board} {p : Pos} (h : b.inBounds p) :
    p ∈ b.allPositions := mem_allPositions.mpr h

/-- Updating a `none` entry to `some` bumps the `isSome` count by one. -/
theorem countP_upd_some_of_none {γ : Type} {f : Pos → Option γ} :
    ∀ {l : List Pos}, l.Nodup → ∀ {p : Pos}, p ∈ l → f p = none → ∀ (v : γ),
    l.countP (fun q => ((upd f p (some v)) q).isSome) =
      l.countP (fun q => (f q).isSome) + 1 := by
  intro l
  induction l with
  | nil => intro _ p hp; simp at hp
  | cons a t ih =>
    intro hnd p hp hf v
    rcases List.mem_cons.mp hp with rfl | hpt
    · have hpt : p ∉ t := (List.nodup_cons.mp hnd).1
      have h1 : ((upd f p (some v)) p).isSome = true := by simp
      have h2 : (f p).isSome = false := by simp [hf]
      have h3 : t.countP (fun q => ((upd f p (some v)) q).isSome) =
          t.countP (fun q => (f q).isSome) := by
        refine List.countP_congr ?_
        intro q hq
        have : q ≠ p := fun h => hpt (h ▸ hq)
        rw [upd_ne _ _ this]
      simp [List.countP_cons, h1, h2, h3]
    · have hnd' := (List.nodup_cons.mp hnd).2
      have hap : a ≠ p := by
        rintro rfl
        exact (List.nodup_cons.mp hnd).1 hpt
      rw [List.countP_cons, List.countP_cons, upd_ne _ _ hap,
        ih hnd' hpt hf v]
      omega

/-- Updating a `some` entry to `some` keeps the `isSome` count. -/
theorem countP_upd_some_of_some {γ : Type} {f : Pos → Option γ} {l : List Pos}
    {p : Pos} (hf : (f p).isSome) (v : γ) :
    l.countP (fun q => ((upd f p (some v)) q).isSome) =
      l.countP (fun q => (f q).isSome) := by
  refine List.countP_congr ?_
  intro q hq
  by_cases h : q = p
  · subst h; simp [hf]
  · rw [upd_ne _ _ h]

/-- Strict decrease of a pointwise-smaller map's sum over a duplicate-free
list containing the changed position. -/
theorem sum_map_lt_of_point_lt {l : List Pos} (hl : l.Nodup) {p : Pos}
    (hp : p ∈ l) {f g : Pos → Nat} (hfg : ∀ q, q ≠ p → g q = f q)
    (hlt : g p < f p) : (l.map g).sum + 1 ≤ (l.map f).sum := by
  induction l with
  | nil => simp at hp
  | cons a t ih =>
    rcases List.mem_cons.mp hp with rfl | hpt
    · have hpt : p ∉ t := (List.nodup_cons.mp hl).1
      have : t.map g = t.map f := by
        refine List.map_congr_left ?_
        intro q hq
        exact hfg q (fun h => hpt (h ▸ hq))
      simp only [List.map_cons, List.sum_cons, this]
      omega
    · have hap : a ≠ p := by
        rintro rfl
        exact (List.nodup_cons.mp hl).1 hpt
      have := ih (List.nodup_cons.mp hl).2 hpt
      simp only [List.map_cons, List.sum_cons, hfg a hap]
      omega

/-- A sum of list-mapped values, each bounded by `c`, is at most `c · length`. -/
theorem sum_map_le_card {l : List Pos} {f : Pos → Nat} {c : Nat}
    (h : ∀ p ∈ l, f p ≤ c) : (l.map f).sum ≤ c * l.length := by
  induction l with
  | nil => simp
  | cons a t ih =>
    simp only [List.map_cons, List.sum_cons, List.length_cons]
    have h1 := h a (List.mem_cons_self a t)
    have h2 := ih (fun p hp => h p (List.mem_cons_of_mem a hp))
    calc f a + (t.map f).sum ≤ c + c * t.length := by omega
      _ = c * (t.length + 1) := by ring

/-! ## Adjacency and Manhattan distance -/

theorem adj_of_mem_nbrs {p q : Pos} (hp1 : 1 ≤ p.1) (hp2 : 1 ≤ p.2)
    (hq1 : 1 ≤ q.1) (hq2 : 1 ≤ q.2) (h : q ∈ nbrs p) : adj p q := by
  obtain ⟨pc, pr⟩ := p
  obtain ⟨qc, qr⟩ := q
  simp only [nbrs, List.mem_cons, List.not_mem_nil, or_false,
    Prod.mk.injEq] at h
  simp only at hp1 hp2 hq1 hq2
  unfold adj
  simp only
  omega

theorem mem_nbrs_of_adj {p q : Pos} (h : adj p q) : q ∈ nbrs p := by
  obtain ⟨pc, pr⟩ := p
  obtain ⟨qc, qr⟩ := q
  unfold adj at h
  simp only at h
  simp only [nbrs, List.mem_cons, List.not_mem_nil, or_false,
    Prod.mk.injEq]
  omega

theorem self_not_mem_nbrs {p : Pos} (hp1 : 1 ≤ p.1) (hp2 : 1 ≤ p.2) :
    p ∉ nbrs p := by
  obtain ⟨pc, pr⟩ := p
  simp only [nbrs, List.mem_cons, List.not_mem_nil, or_false,
    Prod.mk.injEq]
  simp only at hp1 hp2
  omega

theorem adj_manhattan {p q : Pos} (h : adj p q) : manhattan p q = 1 := by
  obtain ⟨pc, pr⟩ := p
  obtain ⟨qc, qr⟩ := q
  unfold adj at h
  unfold manhattan
  simp only at h ⊢
  omega

theorem manhattan_triangle (p q r : Pos) :
    manhattan p r ≤ manhattan p q + manhattan q r := by
  unfold manhattan
  omega

theorem manhattan_self (p : Pos) : manhattan p p = 0 := by
  unfold manhattan
  omega

theorem manhattan_eq_zero {p q : Pos} (h : manhattan p q = 0) : p = q := by
  obtain ⟨pc, pr⟩ := p
  obtain ⟨qc, qr⟩ := q
  unfold manhattan at h
  simp only at h
  simp only [Prod.mk.injEq]
  omega

/-! ## Search-loop invariants -/

/-- Number of cells currently carrying a `cost` value. -/
def assigned (b : Board) (s : SearchState) : Nat :=
  b.allPositions.countP (fun p => (s.cost p).isSome)

/-- The per-cell potential: the recorded cost, or the cell count for
unassigned cells (strictly above every recorded cost). -/
def nu (b : Board) (s : SearchState) (p : Pos) : Nat :=
  (s.cost p).getD (b.columns * b.rows)

/-- The termination measure of the `while stack` loop: each iteration
strictly decreases it. -/
def pot (b : Board) (s : SearchState) : Nat :=
  (b.columns * b.rows + 1) * (b.allPositions.map (nu b s)).sum + s.stack.length

/-- A cell is settled when each of its empty in-bounds neighbors records a
cost at most one above its own. -/
def SettledAt (b : Board) (s : SearchState) (p : Pos) : Prop :=
  ∀ q ∈ nbrs p, b.inBounds q → b.colors q = none →
    ∃ kp kq, s.cost p = some kp ∧ s.cost q = some kq ∧ kq ≤ kp + 1

/-- The stack-independent part of the search invariant, relative to board
`b` and search origin `src`. -/
structure SInvCore (b : Board) (src : Pos) (s : SearchState) : Prop where
  src_cost : s.cost src = some 0
  src_prev : s.prev src = none
  cost_src : ∀ p, (s.cost p).isSome → s.prev p = none → p = src
  prev_ok : ∀ p q, s.prev p = some q → adj q p ∧ b.colors p = none ∧
    b.inBounds p ∧ ∃ kp kq, s.cost p = some kp ∧ s.cost q = some kq ∧ kq + 1 ≤ kp
  stack_cost : ∀ p ∈ s.stack, (s.cost p).isSome
  support : ∀ p, (s.cost p).isSome → b.inBounds p
  bounded : ∀ p k, s.cost p = some k → k + 1 ≤ assigned b s

/-- The full search invariant: additionally, every cost-carrying cell not on
the work list has had its neighbors relaxed against its current cost. -/
structure SInv (b : Board) (src : Pos) (s : SearchState)
    extends SInvCore b src s : Prop where
  settled : ∀ p, (s.cost p).isSome → p ∉ s.stack → SettledAt b s p

/-- Monotone evolution of costs: recorded costs never disappear and never
increase. -/
def costLE (s t : SearchState) : Prop :=
  ∀ p k, s.cost p = some k → ∃ k', t.cost p = some k' ∧ k' ≤ k

theorem costLE_refl (s : SearchState) : costLE s s :=
  fun _ k h => ⟨k, h, Nat.le_refl k⟩

theorem costLE_trans {s t u : SearchState} (h1 : costLE s t) (h2 : costLE t u) :
    costLE s u := by
  intro p k h
  obtain ⟨k', hk', hle'⟩ := h1 p k h
  obtain ⟨k'', hk'', hle''⟩ := h2 p k' hk'
  exact ⟨k'', hk'', Nat.le_trans hle'' hle'⟩

/-- Case analysis of `visit_cell`: either the previous cell has no cost (the
asserted-impossible case), or the probed cell is occupied, or it already
records a cost no worse than `previous_cell.cost + 1` — all three leaving the
state unchanged — or a relaxation fires: the probed cell is empty with absent
or strictly worse cost, and it receives the new cost, the new predecessor and
a place on the work list. -/
theorem visitCell_cases (b : Board) (cell pc : Pos) (s : SearchState) :
    (s.cost pc = none ∧ visitCell b cell pc s = s) ∨
    (¬ b.colors cell = none ∧ visitCell b cell pc s = s) ∨
    (∃ cp k, s.cost pc = some cp ∧ b.colors cell = none ∧
      s.cost cell = some k ∧ k ≤ cp + 1 ∧ visitCell b cell pc s = s) ∨
    (∃ cp, s.cost pc = some cp ∧ b.colors cell = none ∧
      (s.cost cell = none ∨ ∃ k, s.cost cell = some k ∧ cp + 1 < k) ∧
      visitCell b cell pc s =
        { cost := upd s.cost cell (some (cp + 1)),
          prev := upd s.prev cell (some pc),
          stack := cell :: s.stack }) := by
  unfold visitCell
  cases hc : s.cost pc with
  | none => exact Or.inl ⟨rfl, rfl⟩
  | some cp =>
    dsimp only
    by_cases he : (b.colors cell).isNone
    · rw [if_pos he]
      have he' : b.colors cell = none := Option.isNone_iff_eq_none.mp he
      cases hk : s.cost cell with
      | none =>
        right; right; right
        exact ⟨cp, rfl, he', Or.inl rfl, by simp⟩
      | some k =>
        by_cases hrel : cp + 1 < k
        · right; right; right
          refine ⟨cp, rfl, he', Or.inr ⟨k, rfl, hrel⟩, ?_⟩
          simp [hrel]
        · right; right; left
          exact ⟨cp, k, rfl, he', rfl, by omega, by simp [hrel]⟩
    · rw [if_neg he]
      right; left
      exact ⟨fun h => he (Option.isNone_iff_eq_none.mpr h), rfl⟩

theorem inBounds_pos {b : Board} {p : Pos} (h : b.inBounds p) :
    1 ≤ p.1 ∧ 1 ≤ p.2 :=
  ⟨h.1, h.2.2.1⟩

theorem nu_eq_of_cost_eq {b : Board} {s t : SearchState} {p : Pos}
    (h : s.cost p = t.cost p) : nu b s p = nu b t p := by
  unfold nu
  rw [h]

theorem assigned_le (b : Board) (s : SearchState) :
    assigned b s ≤ b.columns * b.rows := by
  calc assigned b s ≤ b.allPositions.length := List.countP_le_length _
    _ = b.columns * b.rows := length_allPositions b

/-- What one pop-round maintains while probing the popped cell's neighbors:
the core invariant, monotone costs, the popped cell's cost pinned at `cl`,
settledness of every cost-carrying off-stack cell other than the popped one,
the relaxation guarantee for the already-probed neighbors, and a potential no
larger than the after-pop one. -/
structure RoundInv (b : Board) (src last : Pos) (cl : Nat) (s0 : SearchState)
    (pre : List Pos) (t : SearchState) : Prop where
  core : SInvCore b src t
  mono : costLE s0 t
  last_cost : t.cost last = some cl
  settledX : ∀ p, (t.cost p).isSome → p ∉ t.stack → p ≠ last → SettledAt b t p
  probed : ∀ q ∈ pre, b.inBounds q → b.colors q = none →
    ∃ kq, t.cost q = some kq ∧ kq ≤ cl + 1
  pot_le : pot b t ≤ pot b s0

/-- Probing one more neighbor of the popped cell preserves the round
invariant and extends the relaxation guarantee to that neighbor. -/
theorem RoundInv.step {b : Board} {src last : Pos} {cl : Nat}
    {s0 t : SearchState} {pre : List Pos}
    (h : RoundInv b src last cl s0 pre t) (hlast : b.inBounds last)
    {q : Pos} (hq : q ∈ nbrs last) :
    RoundInv b src last cl s0 (pre ++ [q]) (visitIfInBounds b last t q) := by
  have hql : q ≠ last := by
    intro heq
    exact self_not_mem_nbrs (inBounds_pos hlast).1 (inBounds_pos hlast).2 (heq ▸ hq)
  unfold visitIfInBounds
  by_cases hqin : b.inBounds q
  swap
  · rw [if_neg hqin]
    refine { h with probed := ?_ }
    intro q' hq' hin hemp
    rcases List.mem_append.mp hq' with hpre | hsing
    · exact h.probed q' hpre hin hemp
    · rw [List.mem_singleton.mp hsing] at hin
      exact absurd hin hqin
  rw [if_pos hqin]
  rcases visitCell_cases b q last t with ⟨hnone, heq⟩ | ⟨hocc, heq⟩ |
    ⟨cp, k, hcp, hemp, hk, hle, heq⟩ | ⟨cp, hcp, hemp, hold, heq⟩
  · rw [h.last_cost] at hnone
    exact absurd hnone (by simp)
  · rw [heq]
    refine { h with probed := ?_ }
    intro q' hq' hin hemp
    rcases List.mem_append.mp hq' with hpre | hsing
    · exact h.probed q' hpre hin hemp
    · rw [List.mem_singleton.mp hsing] at hemp
      exact absurd hemp hocc
  · rw [heq]
    have hcpcl : cp = cl := by
      rw [h.last_cost] at hcp
      exact (Option.some.inj hcp).symm
    refine { h with probed := ?_ }
    intro q' hq' hin hemp'
    rcases List.mem_append.mp hq' with hpre | hsing
    · exact h.probed q' hpre hin hemp'
    · rw [List.mem_singleton.mp hsing]
      exact ⟨k, hk, by omega⟩
  · -- the relaxation case
    have hcpcl : cp = cl := by
      rw [h.last_cost] at hcp
      exact (Option.some.inj hcp).symm
    subst hcpcl
    -- component equations of the relaxed state
    have hcostq : (visitCell b q last t).cost q = some (cp + 1) := by
      rw [heq]
      exact upd_self _ _ _
    have hcostne : ∀ p : Pos, p ≠ q → (visitCell b q last t).cost p = t.cost p := by
      intro p hpq
      rw [heq]
      exact upd_ne _ _ hpq
    have hprevq : (visitCell b q last t).prev q = some last := by
      rw [heq]
      exact upd_self _ _ _
    have hprevne : ∀ p : Pos, p ≠ q → (visitCell b q last t).prev p = t.prev p := by
      intro p hpq
      rw [heq]
      exact upd_ne _ _ hpq
    have hstackeq : (visitCell b q last t).stack = q :: t.stack := by
      rw [heq]
    have hqsrc : q ≠ src := by
      intro hqe
      subst hqe
      rcases hold with hn | ⟨k, hk, hlt⟩
      · rw [h.core.src_cost] at hn
        exact absurd hn (by simp)
      · rw [h.core.src_cost] at hk
        have := Option.some.inj hk
        omega
    have hmemq : q ∈ b.allPositions := mem_allPositions.mpr hqin
    have hnd := allPositions_nodup b
    have hadj : adj last q :=
      adj_of_mem_nbrs (inBounds_pos hlast).1 (inBounds_pos hlast).2
        (inBounds_pos hqin).1 (inBounds_pos hqin).2 hq
    have hassigned :
        (assigned b (visitCell b q last t) = assigned b t + 1 ∧ t.cost q = none) ∨
        (assigned b (visitCell b q last t) = assigned b t ∧
          ∃ k, t.cost q = some k ∧ cp + 1 < k) := by
      rcases hold with hn | ⟨k, hk, hlt⟩
      · left
        refine ⟨?_, hn⟩
        unfold assigned
        rw [heq]
        exact countP_upd_some_of_none hnd hmemq hn _
      · right
        refine ⟨?_, k, hk, hlt⟩
        unfold assigned
        rw [heq]
        exact countP_upd_some_of_some (by rw [hk]; rfl) _
    have hbounded : ∀ p k', (visitCell b q last t).cost p = some k' →
        k' + 1 ≤ assigned b (visitCell b q last t) := by
      intro p k' hp
      by_cases hpq : p = q
      · subst hpq
        rw [hcostq] at hp
        have hk' : k' = cp + 1 := (Option.some.inj hp).symm
        subst hk'
        rcases hassigned with ⟨ha, _⟩ | ⟨ha, k, hk, hlt⟩
        · rw [ha]
          have := h.core.bounded last cp h.last_cost
          omega
        · rw [ha]
          have := h.core.bounded p k hk
          omega
      · rw [hcostne p hpq] at hp
        have := h.core.bounded p k' hp
        rcases hassigned with ⟨ha, _⟩ | ⟨ha, _⟩ <;> omega
    refine
      { core := ?_, mono := ?_, last_cost := ?_, settledX := ?_,
        probed := ?_, pot_le := ?_ }
    · refine
        { src_cost := ?_, src_prev := ?_, cost_src := ?_, prev_ok := ?_,
          stack_cost := ?_, support := ?_, bounded := hbounded }
      · rw [hcostne src (Ne.symm hqsrc)]
        exact h.core.src_cost
      · rw [hprevne src (Ne.symm hqsrc)]
        exact h.core.src_prev
      · intro p hp hprev
        by_cases hpq : p = q
        · subst hpq
          rw [hprevq] at hprev
          exact absurd hprev (by simp)
        · rw [hprevne p hpq] at hprev
          rw [hcostne p hpq] at hp
          exact h.core.cost_src p hp hprev
      · intro p p' hprev
        by_cases hpq : p = q
        · subst hpq
          rw [hprevq] at hprev
          have hp' : p' = last := (Option.some.inj hprev).symm
          subst hp'
          refine ⟨hadj, hemp, hqin, cp + 1, cp, hcostq, ?_, by omega⟩
          rw [hcostne p' (Ne.symm hql)]
          exact h.last_cost
        · rw [hprevne p hpq] at hprev
          obtain ⟨hadj', hemp', hin', kp, kq', hkp, hkq', hlt'⟩ :=
            h.core.prev_ok p p' hprev
          refine ⟨hadj', hemp', hin', ?_⟩
          by_cases hp'q : p' = q
          · subst hp'q
            rcases hold with hn | ⟨k, hk, hltk⟩
            · rw [hn] at hkq'
              exact absurd hkq' (by simp)
            · rw [hk] at hkq'
              have hkk : kq' = k := (Option.some.inj hkq').symm
              refine ⟨kp, cp + 1, ?_, hcostq, by omega⟩
              rw [hcostne p hpq]
              exact hkp
          · refine ⟨kp, kq', ?_, ?_, hlt'⟩
            · rw [hcostne p hpq]
              exact hkp
            · rw [hcostne p' hp'q]
              exact hkq'
      · intro p hp
        rw [hstackeq] at hp
        rcases List.mem_cons.mp hp with rfl | hmem
        · rw [hcostq]
          rfl
        · by_cases hpq : p = q
          · subst hpq
            rw [hcostq]
            rfl
          · rw [hcostne p hpq]
            exact h.core.stack_cost p hmem
      · intro p hp
        by_cases hpq : p = q
        · subst hpq
          exact hqin
        · rw [hcostne p hpq] at hp
          exact h.core.support p hp
    · -- mono
      refine costLE_trans h.mono ?_
      intro p k hk
      by_cases hpq : p = q
      · subst hpq
        rcases hold with hn | ⟨k', hk', hlt⟩
        · rw [hn] at hk
          exact absurd hk (by simp)
        · rw [hk'] at hk
          have : k = k' := (Option.some.inj hk).symm
          subst this
          exact ⟨cp + 1, hcostq, by omega⟩
      · exact ⟨k, by rw [hcostne p hpq]; exact hk, le_refl k⟩
    · -- last cost
      rw [hcostne last (Ne.symm hql)]
      exact h.last_cost
    · -- settledX
      intro p hp hstk hplast
      rw [hstackeq] at hstk
      have hpq : p ≠ q := by
        intro hpe
        subst hpe
        exact hstk (List.mem_cons_self _ _)
      have hstk' : p ∉ t.stack := fun hm => hstk (List.mem_cons_of_mem _ hm)
      rw [hcostne p hpq] at hp
      have hsett := h.settledX p hp hstk' hplast
      intro q' hq' hin' hemp'
      obtain ⟨kp, kq', hkp, hkq', hle'⟩ := hsett q' hq' hin' hemp'
      by_cases hq'q : q' = q
      · subst hq'q
        rcases hold with hn | ⟨k, hk, hltk⟩
        · rw [hn] at hkq'
          exact absurd hkq' (by simp)
        · rw [hk] at hkq'
          have hkk : kq' = k := (Option.some.inj hkq').symm
          refine ⟨kp, cp + 1, ?_, hcostq, by omega⟩
          rw [hcostne p hpq]
          exact hkp
      · refine ⟨kp, kq', ?_, ?_, hle'⟩
        · rw [hcostne p hpq]
          exact hkp
        · rw [hcostne q' hq'q]
          exact hkq'
    · -- probed
      intro q' hq' hin' hemp'
      by_cases hq'q : q' = q
      · subst hq'q
        exact ⟨cp + 1, hcostq, le_refl _⟩
      · rcases List.mem_append.mp hq' with hpre | hsing
        · obtain ⟨kq', hkq', hle'⟩ := h.probed q' hpre hin' hemp'
          refine ⟨kq', ?_, hle'⟩
          rw [hcostne q' hq'q]
          exact hkq'
        · exact absurd (List.mem_singleton.mp hsing) hq'q
    · -- potential
      refine le_trans ?_ h.pot_le
      have hnulow : nu b (visitCell b q last t) q = cp + 1 := by
        unfold nu
        rw [hcostq]
        rfl
      have hnuq : nu b (visitCell b q last t) q < nu b t q := by
        rw [hnulow]
        rcases hold with hn | ⟨k, hk, hltk⟩
        · unfold nu
          rw [hn]
          have h1 : cp + 1 + 1 ≤ assigned b (visitCell b q last t) :=
            hbounded q (cp + 1) hcostq
          have h2 := assigned_le b (visitCell b q last t)
          simp only [Option.getD_none]
          omega
        · unfold nu
          rw [hk]
          simpa using hltk
      have hsum : (b.allPositions.map (nu b (visitCell b q last t))).sum + 1 ≤
          (b.allPositions.map (nu b t)).sum := by
        refine sum_map_lt_of_point_lt hnd hmemq ?_ hnuq
        intro p hpq
        exact nu_eq_of_cost_eq (hcostne p hpq)
      have hstlen : (visitCell b q last t).stack.length = t.stack.length + 1 := by
        rw [hstackeq]
        rfl
      unfold pot
      have hmul : (b.columns * b.rows + 1) *
          ((b.allPositions.map (nu b (visitCell b q last t))).sum + 1) ≤
          (b.columns * b.rows + 1) * (b.allPositions.map (nu b t)).sum :=
        Nat.mul_le_mul_left _ hsum
      rw [Nat.mul_succ] at hmul
      rw [hstlen]
      omega

/-- Folding the neighbor probes over any sublist of the popped cell's
neighbor list preserves the round invariant. -/
theorem roundInv_foldl {b : Board} {src last : Pos} {cl : Nat}
    {s0 : SearchState} (hlast : b.inBounds last) :
    ∀ (qs pre : List Pos) (t : SearchState),
    RoundInv b src last cl s0 pre t → (∀ q ∈ qs, q ∈ nbrs last) →
    RoundInv b src last cl s0 (pre ++ qs) (qs.foldl (visitIfInBounds b last) t)
  | [], pre, t, h, _ => by simpa using h
  | q :: qs, pre, t, h, hqs => by
    have hstep := h.step hlast (hqs q (List.mem_cons_self _ _))
    have := roundInv_foldl hlast qs (pre ++ [q]) (visitIfInBounds b last t q)
      hstep (fun q' hq' => hqs q' (List.mem_cons_of_mem _ hq'))
    simpa using this

/-- One iteration of the `while stack` loop preserves the full invariant and
strictly decreases the termination measure. -/
theorem round_spec {b : Board} {src : Pos} {s : SearchState}
    (hinv : SInv b src s) {last : Pos} {rest : List Pos}
    (hstack : s.stack = last :: rest) :
    SInv b src (visitNeighbors b last { s with stack := rest }) ∧
      pot b (visitNeighbors b last { s with stack := rest }) + 1 ≤ pot b s ∧
      costLE s (visitNeighbors b last { s with stack := rest }) := by
  have hlast_cost : (s.cost last).isSome :=
    hinv.stack_cost last (hstack ▸ List.mem_cons_self _ _)
  obtain ⟨cl, hcl⟩ := Option.isSome_iff_exists.mp hlast_cost
  have hlast_in : b.inBounds last := hinv.support last hlast_cost
  have hstart : RoundInv b src last cl { s with stack := rest } []
      { s with stack := rest } := by
    refine
      { core := ?_, mono := ?_, last_cost := hcl, settledX := ?_,
        probed := ?_, pot_le := le_refl _ }
    · exact
        { src_cost := hinv.src_cost, src_prev := hinv.src_prev,
          cost_src := hinv.cost_src, prev_ok := hinv.prev_ok,
          stack_cost := fun p hp =>
            hinv.stack_cost p (hstack ▸ List.mem_cons_of_mem _ hp),
          support := hinv.support, bounded := hinv.bounded }
    · exact costLE_refl _
    · intro p hp hstk hplast
      refine hinv.settled p hp ?_
      rw [hstack]
      intro hmem
      rcases List.mem_cons.mp hmem with rfl | hmem'
      · exact hplast rfl
      · exact hstk hmem'
    · intro q hq
      exact absurd hq (List.not_mem_nil q)
  have hfold := roundInv_foldl hlast_in (nbrs last) [] { s with stack := rest }
    hstart (fun q hq => hq)
  rw [List.nil_append] at hfold
  unfold visitNeighbors
  refine ⟨?_, ?_, ?_⟩
  · refine { toSInvCore := hfold.core, settled := ?_ }
    intro p hp hstk
    by_cases hplast : p = last
    · subst hplast
      intro q hq hin hemp
      obtain ⟨kq, hkq, hle⟩ := hfold.probed q hq hin hemp
      exact ⟨cl, kq, hfold.last_cost, hkq, hle⟩
    · exact hfold.settledX p hp hstk hplast
  · have h1 := hfold.pot_le
    have h2 : pot b ({ s with stack := rest } : SearchState) + 1 = pot b s := by
      have hmap : List.map (nu b { s with stack := rest }) b.allPositions =
          List.map (nu b s) b.allPositions := rfl
      unfold pot
      rw [hmap, hstack]
      simp only [List.length_cons]
      omega
    omega
  · exact hfold.mono

/-- Running the loop with fuel at least the termination measure reaches an
empty work list, preserving the invariant and only lowering costs. -/
theorem searchLoop_spec (b : Board) (src : Pos) :
    ∀ (fuel : Nat) (s : SearchState), SInv b src s → pot b s ≤ fuel →
    SInv b src (searchLoop b fuel s) ∧ (searchLoop b fuel s).stack = [] ∧
      costLE s (searchLoop b fuel s)
  | 0, s, hinv, hpot => by
    have : s.stack.length = 0 := by
      unfold pot at hpot
      omega
    have hstack : s.stack = [] := List.length_eq_zero.mp this
    exact ⟨hinv, hstack, costLE_refl s⟩
  | fuel + 1, s, hinv, hpot => by
    cases hstack : s.stack with
    | nil =>
      rw [searchLoop]
      rw [hstack]
      exact ⟨hinv, hstack, costLE_refl s⟩
    | cons last rest =>
      rw [searchLoop, hstack]
      obtain ⟨hinv', hpot', hle'⟩ := round_spec hinv hstack
      have hfuel : pot b (visitNeighbors b last { s with stack := rest }) ≤ fuel := by
        omega
      obtain ⟨h1, h2, h3⟩ := searchLoop_spec b src fuel _ hinv' hfuel
      exact ⟨h1, h2, costLE_trans hle' h3⟩

/-- The seeded initial search state of `_evaluate_path`: origin cost 0, no
predecessors, the origin alone on the work list. -/
def initState (src : Pos) : SearchState :=
  { cost := upd (fun _ => none) src (some 0), prev := fun _ => none,
    stack := [src] }

/-- The invariant holds of the seeded initial search state. -/
theorem init_SInv (b : Board) (src : Pos) (hsrc : b.inBounds src) :
    SInv b src (initState src) := by
  have hcost : ∀ p : Pos, ((initState src).cost p).isSome → p = src := by
    intro p hp
    by_cases hps : p = src
    · exact hps
    · have hp' : (upd (fun _ => none) src (some 0) p).isSome = true := hp
      rw [upd_ne _ _ hps] at hp'
      exact absurd hp' (by simp)
  refine
    { src_cost := ?_, src_prev := rfl,
      cost_src := fun p hp _ => hcost p hp,
      prev_ok := ?_, stack_cost := ?_, support := ?_, bounded := ?_,
      settled := ?_ }
  · show upd (fun _ => none) src (some 0) src = some 0
    exact upd_self _ _ _
  · intro p q hpq
    have hnone : (initState src).prev p = none := rfl
    rw [hnone] at hpq
    exact absurd hpq (by simp)
  · intro p hp
    have hps : p = src := List.mem_singleton.mp hp
    subst hps
    show (upd (fun _ => none) p (some 0) p).isSome = true
    rw [upd_self]
    rfl
  · intro p hp
    rw [hcost p hp]
    exact hsrc
  · intro p k hp
    have hps : p = src := hcost p (by rw [hp]; rfl)
    subst hps
    have hp' : upd (fun _ => none) p (some 0) p = some k := hp
    rw [upd_self] at hp'
    have hk : k = 0 := (Option.some.inj hp').symm
    subst hk
    unfold assigned
    have hpos : 0 < b.allPositions.countP
        (fun q => ((initState p).cost q).isSome) := by
      rw [List.countP_pos_iff]
      refine ⟨p, mem_allPositions.mpr hsrc, ?_⟩
      show (upd (fun _ => none) p (some 0) p).isSome = true
      rw [upd_self]
      rfl
    omega
  · intro p hp hstk
    have hps := hcost p hp
    subst hps
    exact absurd (List.mem_singleton.mpr rfl) hstk

/-- The measure of the seeded initial state is dominated by the fuel
`_evaluate_path` runs with. -/
theorem pot_init_le (b : Board) (src : Pos) :
    pot b (initState src) ≤ b.fuelBound := by
  have hbound : ∀ p ∈ b.allPositions,
      nu b (initState src) p ≤ b.columns * b.rows := by
    intro p _
    unfold nu initState
    by_cases hps : p = src
    · subst hps
      show (upd (fun _ => none) p (some 0) p).getD (b.columns * b.rows) ≤ _
      rw [upd_self]
      simp
    · show (upd (fun _ => none) src (some 0) p).getD (b.columns * b.rows) ≤ _
      rw [upd_ne _ _ hps]
      simp
  have hsum := sum_map_le_card hbound
  rw [length_allPositions] at hsum
  unfold pot Board.fuelBound
  have hlen : (initState src).stack.length = 1 := rfl
  have hmul : (b.columns * b.rows + 1) *
      (b.allPositions.map (nu b (initState src))).sum ≤
      (b.columns * b.rows + 1) * (b.columns * b.rows * (b.columns * b.rows)) :=
    Nat.mul_le_mul_left _ hsum
  have hcube : (b.columns * b.rows + 1) *
      (b.columns * b.rows * (b.columns * b.rows)) + 1 ≤
      (b.columns * b.rows + 1) ^ 3 := by
    nlinarith [Nat.zero_le (b.columns * b.rows)]
  omega


/-- Completeness at the fixpoint: with an empty work list, walking any chain
of adjacent empty in-bounds cells from a cost-carrying cell only ever meets
cost-carrying cells, with cost growing at most one per step. -/
theorem cost_along_chain {b : Board} {src : Pos} {s : SearchState}
    (hstack : s.stack = []) (hinv : SInv b src s) :
    ∀ (l : List Pos) (x : Pos) (kx : Nat), s.cost x = some kx →
    List.Chain adj x l → (∀ p ∈ l, b.colors p = none ∧ b.inBounds p) →
    ∃ kd, s.cost (l.getLastD x) = some kd ∧ kd ≤ kx + l.length := by
  intro l
  induction l with
  | nil =>
    intro x kx hx _ _
    exact ⟨kx, by simpa using hx, by simp⟩
  | cons y t ih =>
    intro x kx hx hchain hcells
    rw [List.chain_cons] at hchain
    obtain ⟨hadj, hchain'⟩ := hchain
    obtain ⟨hyemp, hyin⟩ := hcells y (List.mem_cons_self _ _)
    have hxstk : x ∉ s.stack := by
      rw [hstack]
      exact List.not_mem_nil x
    have hsett := hinv.settled x (by rw [hx]; rfl) hxstk
    obtain ⟨kp, kq, hkp, hkq, hle⟩ :=
      hsett y (mem_nbrs_of_adj hadj) hyin hyemp
    have hkpx : kp = kx := by
      rw [hx] at hkp
      exact (Option.some.inj hkp).symm
    subst hkpx
    obtain ⟨kd, hkd, hkdle⟩ := ih y kq hkq hchain'
      (fun p hp => hcells p (List.mem_cons_of_mem _ hp))
    refine ⟨kd, ?_, ?_⟩
    · rw [List.getLastD_cons]
      exact hkd
    · simp only [List.length_cons]
      omega

theorem buildPath_ne_nil (pr : Pos → Option Pos) :
    ∀ (fuel : Nat) (t : Pos), buildPath pr fuel t ≠ []
  | 0, t => by simp [buildPath]
  | fuel + 1, t => by
    unfold buildPath
    cases pr t with
    | none => simp
    | some q => simp

/-- Soundness of the path reconstruction: starting from any cost-carrying
cell with enough fuel, the rebuilt predecessor chain is a route from the
origin, no longer than the recorded cost plus one. -/
theorem buildPath_spec {b : Board} {src : Pos} {s : SearchState}
    (hinv : SInv b src s) :
    ∀ (fuel : Nat) (t : Pos) (kt : Nat), s.cost t = some kt → kt ≤ fuel →
    (buildPath s.prev fuel t).head? = some src ∧
    (buildPath s.prev fuel t).getLast? = some t ∧
    List.Chain' adj (buildPath s.prev fuel t) ∧
    (∀ p ∈ (buildPath s.prev fuel t).tail, b.colors p = none ∧ b.inBounds p) ∧
    (buildPath s.prev fuel t).length ≤ kt + 1 := by
  intro fuel
  induction fuel with
  | zero =>
    intro t kt ht hfuel
    have hkt : kt = 0 := Nat.le_zero.mp hfuel
    subst hkt
    have hprev : s.prev t = none := by
      cases hq : s.prev t with
      | none => rfl
      | some q =>
        obtain ⟨_, _, _, kp, kq, hkp, _, hlt⟩ := hinv.prev_ok t q hq
        rw [ht] at hkp
        have : kp = 0 := (Option.some.inj hkp).symm
        omega
    have hts : t = src := hinv.cost_src t (by rw [ht]; rfl) hprev
    subst hts
    unfold buildPath
    refine ⟨rfl, rfl, List.chain'_singleton t, ?_, by simp⟩
    intro p hp
    simp at hp
  | succ fuel ih =>
    intro t kt ht hfuel
    unfold buildPath
    cases hq : s.prev t with
    | none =>
      dsimp only
      have hts : t = src := hinv.cost_src t (by rw [ht]; rfl) hq
      subst hts
      refine ⟨rfl, rfl, List.chain'_singleton t, ?_, by simp⟩
      intro p hp
      simp at hp
    | some q =>
      dsimp only
      obtain ⟨hadj, htemp, htin, kp, kq, hkp, hkq, hlt⟩ := hinv.prev_ok t q hq
      have hkpt : kp = kt := by
        rw [ht] at hkp
        exact (Option.some.inj hkp).symm
      subst hkpt
      have hkqf : kq ≤ fuel := by omega
      obtain ⟨hh, hl, hch, htl, hlen⟩ := ih q kq hkq hkqf
      have hne : buildPath s.prev fuel q ≠ [] := buildPath_ne_nil _ _ _
      refine ⟨?_, ?_, ?_, ?_, ?_⟩
      · rw [List.head?_append_of_ne_nil _ hne]
        exact hh
      · exact List.getLast?_concat _
      · rw [List.chain'_append]
        refine ⟨hch, List.chain'_singleton t, ?_⟩
        intro x hx y hy
        rw [hl] at hx
        simp only [List.head?_cons, Option.mem_def, Option.some.injEq] at hx hy
        subst hx
        subst hy
        exact hadj
      · cases hbp : buildPath s.prev fuel q with
        | nil => exact absurd hbp hne
        | cons a t' =>
          intro p hp
          simp only [List.cons_append, List.tail_cons] at hp
          rcases List.mem_append.mp hp with hp' | hp'
          · refine htl p ?_
            rw [hbp]
            exact hp'
          · rw [List.mem_singleton.mp hp']
            exact ⟨htemp, htin⟩
      · rw [List.length_append]
        simp only [List.length_singleton]
        omega

/-- Extending a route by one adjacent empty in-bounds cell. -/
theorem route_concat {b : Board} {l : List Pos} {src q dst : Pos}
    (h : isRoute b l src q) (hadj : adj q dst) (hemp : b.colors dst = none)
    (hin : b.inBounds dst) : isRoute b (l ++ [dst]) src dst := by
  obtain ⟨hne, hh, hl, hch, hsin, htl⟩ := h
  refine ⟨by simp, ?_, List.getLast?_concat _, ?_, hsin, ?_⟩
  · rw [List.head?_append_of_ne_nil _ hne]
    exact hh
  · rw [List.chain'_append]
    refine ⟨hch, List.chain'_singleton dst, ?_⟩
    intro x hx y hy
    rw [hl] at hx
    simp only [List.head?_cons, Option.mem_def, Option.some.injEq] at hx hy
    subst hx
    subst hy
    exact hadj
  · cases l with
    | nil => exact absurd rfl hne
    | cons a t' =>
      intro p hp
      simp only [List.cons_append, List.tail_cons] at hp
      rcases List.mem_append.mp hp with hp' | hp'
      · exact htl p hp'
      · rw [List.mem_singleton.mp hp']
        exact ⟨hemp, hin⟩

/-- A route is never shorter than the Manhattan distance plus one. -/
theorem route_manhattan {b : Board} {l : List Pos} {src dst : Pos}
    (h : isRoute b l src dst) : manhattan src dst + 1 ≤ l.length := by
  obtain ⟨hne, hh, hl, hch, _, _⟩ := h
  have key : ∀ (t : List Pos) (x : Pos), List.Chain adj x t →
      manhattan x (t.getLastD x) ≤ t.length := by
    intro t
    induction t with
    | nil =>
      intro x _
      simp [manhattan_self]
    | cons y t' ih =>
      intro x hchain
      rw [List.chain_cons] at hchain
      obtain ⟨hadj, hchain'⟩ := hchain
      rw [List.getLastD_cons]
      calc manhattan x (t'.getLastD y) ≤
          manhattan x y + manhattan y (t'.getLastD y) := manhattan_triangle _ _ _
        _ ≤ 1 + t'.length := by
            have h1 := adj_manhattan hadj
            have h2 := ih y hchain'
            omega
        _ = (y :: t').length := by simp [Nat.add_comm]
  cases l with
  | nil => exact absurd rfl hne
  | cons a t =>
    have ha : a = src := by
      simp only [List.head?_cons, Option.some.injEq] at hh
      exact hh
    subst ha
    have hdst : t.getLastD a = dst := by
      rw [List.getLast?_cons, ← List.getLastD_eq_getLast?] at hl
      exact Option.some.inj hl
    have := key t a hch
    rw [hdst] at this
    simp only [List.length_cons]
    omega

/-- On a board whose every cell other than the origin is empty, a route of
length exactly the Manhattan distance plus one exists between any two
in-bounds cells. -/
theorem exists_geodesic {b : Board} :
    ∀ (n : Nat) (src dst : Pos), manhattan src dst = n → b.inBounds src →
    b.inBounds dst → (∀ p : Pos, p ≠ src → b.inBounds p → b.colors p = none) →
    ∃ l, isRoute b l src dst ∧ l.length = manhattan src dst + 1 := by
  intro n
  induction n with
  | zero =>
    intro src dst hman hs hd _
    have : src = dst := manhattan_eq_zero hman
    subst this
    refine ⟨[src], ⟨by simp, rfl, rfl, List.chain'_singleton _, hs, ?_⟩, by
      simp [hman]⟩
    intro p hp
    simp at hp
  | succ n ih =>
    intro src dst hman hs hd hemp
    -- one step from `dst` back toward `src`
    obtain ⟨q, hadjq, hqin, hqman⟩ :
        ∃ q : Pos, adj q dst ∧ b.inBounds q ∧ manhattan src q = n := by
      obtain ⟨sc, sr⟩ := src
      obtain ⟨dc, dr⟩ := dst
      unfold manhattan at hman
      dsimp only at hman
      obtain ⟨hs1, hs2, hs3, hs4⟩ := hs
      obtain ⟨hd1, hd2, hd3, hd4⟩ := hd
      dsimp only at hs1 hs2 hs3 hs4 hd1 hd2 hd3 hd4
      by_cases h1 : sc < dc
      · refine ⟨(dc - 1, dr), ?_, ?_, ?_⟩
        · unfold adj
          dsimp only
          omega
        · exact ⟨by dsimp only; omega, by dsimp only; omega,
            by dsimp only; omega, by dsimp only; omega⟩
        · unfold manhattan
          dsimp only
          omega
      · by_cases h2 : dc < sc
        · refine ⟨(dc + 1, dr), ?_, ?_, ?_⟩
          · unfold adj
            dsimp only
            omega
          · exact ⟨by dsimp only; omega, by dsimp only; omega,
            by dsimp only; omega, by dsimp only; omega⟩
          · unfold manhattan
            dsimp only
            omega
        · by_cases h3 : sr < dr
          · refine ⟨(dc, dr - 1), ?_, ?_, ?_⟩
            · unfold adj
              dsimp only
              omega
            · exact ⟨by dsimp only; omega, by dsimp only; omega,
            by dsimp only; omega, by dsimp only; omega⟩
            · unfold manhattan
              dsimp only
              omega
          · refine ⟨(dc, dr + 1), ?_, ?_, ?_⟩
            · unfold adj
              dsimp only
              omega
            · exact ⟨by dsimp only; omega, by dsimp only; omega,
            by dsimp only; omega, by dsimp only; omega⟩
            · unfold manhattan
              dsimp only
              omega
    have hdst_src : dst ≠ src := by
      intro h
      rw [h, manhattan_self] at hman
      omega
    obtain ⟨l, hroute, hlen⟩ := ih src q hqman hs hqin hemp
    refine ⟨l ++ [dst], route_concat hroute hadjq
      (hemp dst hdst_src hd) hd, ?_⟩
    rw [List.length_append, hman, hlen, hqman]
    simp


/-! ## The contract of `_evaluate_path` -/

/-- The state of the search fields after the `while stack` loop. -/
def finalSearch (b : Board) (src : Pos) : SearchState :=
  searchLoop b b.fuelBound (initState src)

theorem evaluate_path_eq (b : Board) (src dst : Pos) :
    b.evaluate_path src dst =
      match (finalSearch b src).prev dst with
      | none => ([], b)
      | some _ =>
        (buildPath (finalSearch b src).prev (b.columns * b.rows) dst,
          { b with colors := upd (upd b.colors dst (b.colors src)) src none }) :=
  rfl

theorem finalSearch_spec (b : Board) (src : Pos) (hsrc : b.inBounds src) :
    SInv b src (finalSearch b src) ∧ (finalSearch b src).stack = [] := by
  obtain ⟨h1, h2, _⟩ := searchLoop_spec b src b.fuelBound (initState src)
    (init_SInv b src hsrc) (pot_init_le b src)
  exact ⟨h1, h2⟩

theorem evaluate_path_empty_iff_prev (b : Board) (src dst : Pos) :
    (b.evaluate_path src dst).1 = [] ↔ (finalSearch b src).prev dst = none := by
  rw [evaluate_path_eq]
  cases hq : (finalSearch b src).prev dst with
  | none => simp
  | some q =>
    dsimp only
    constructor
    · intro hc
      exact absurd hc (buildPath_ne_nil _ _ _)
    · intro hc
      exact absurd hc (by simp)

theorem evaluate_path_fail_board {b : Board} {src dst : Pos}
    (h : (b.evaluate_path src dst).1 = []) : (b.evaluate_path src dst).2 = b := by
  have hprev := (evaluate_path_empty_iff_prev b src dst).mp h
  rw [evaluate_path_eq, hprev]

theorem evaluate_path_some_eq {b : Board} {src dst q : Pos}
    (h : (finalSearch b src).prev dst = some q) :
    b.evaluate_path src dst =
      (buildPath (finalSearch b src).prev (b.columns * b.rows) dst,
        { b with colors := upd (upd b.colors dst (b.colors src)) src none }) := by
  rw [evaluate_path_eq, h]

/-- At the loop fixpoint, the end of any route carries a cost strictly
bounded by the route length. -/
theorem cost_of_route {b : Board} {src dst : Pos} {l : List Pos}
    {s : SearchState} (hstack : s.stack = []) (hinv : SInv b src s)
    (h : isRoute b l src dst) : ∃ kd, s.cost dst = some kd ∧ kd + 1 ≤ l.length := by
  obtain ⟨hne, hh, hl, hch, hsin, htl⟩ := h
  cases l with
  | nil => exact absurd rfl hne
  | cons a t =>
    have ha : a = src := by simpa using hh
    subst ha
    have hdst : t.getLastD a = dst := by
      rw [List.getLast?_cons, ← List.getLastD_eq_getLast?] at hl
      exact Option.some.inj hl
    have hchain : List.Chain adj a t := hch
    obtain ⟨kd, hkd, hkdle⟩ := cost_along_chain hstack hinv t a 0
      hinv.src_cost hchain (fun p hp => htl p hp)
    rw [hdst] at hkd
    refine ⟨kd, hkd, ?_⟩
    simp only [List.length_cons]
    omega

/-- The success contract of the router: a returned nonempty path is a route
from origin to target, it is no longer than any route, and the move's color
swap has been applied to the board. -/
theorem evaluate_path_success {b : Board} {src dst : Pos}
    (hsrc : b.inBounds src) (h : (b.evaluate_path src dst).1 ≠ []) :
    isRoute b (b.evaluate_path src dst).1 src dst ∧
    (∀ l, isRoute b l src dst → (b.evaluate_path src dst).1.length ≤ l.length) ∧
    (b.evaluate_path src dst).2 =
      { b with colors := upd (upd b.colors dst (b.colors src)) src none } := by
  obtain ⟨hinv, hstack⟩ := finalSearch_spec b src hsrc
  obtain ⟨q, hq⟩ : ∃ q, (finalSearch b src).prev dst = some q := by
    cases hq : (finalSearch b src).prev dst with
    | none => exact absurd ((evaluate_path_empty_iff_prev b src dst).mpr hq) h
    | some q => exact ⟨q, rfl⟩
  obtain ⟨_, _, _, kt, kq, hkt, _, _⟩ := hinv.prev_ok dst q hq
  have hktN : kt ≤ b.columns * b.rows := by
    have h1 := hinv.bounded dst kt hkt
    have h2 := assigned_le b (finalSearch b src)
    omega
  obtain ⟨hh, hl, hch, htl, hlen⟩ :=
    buildPath_spec hinv (b.columns * b.rows) dst kt hkt hktN
  have heq := evaluate_path_some_eq hq
  refine ⟨?_, ?_, ?_⟩
  · rw [heq]
    exact ⟨buildPath_ne_nil _ _ _, hh, hl, hch, hsrc, htl⟩
  · intro l hlroute
    obtain ⟨kd, hkd, hkdlen⟩ := cost_of_route hstack hinv hlroute
    have hkdkt : kd = kt := by
      rw [hkt] at hkd
      exact (Option.some.inj hkd).symm
    subst hkdkt
    rw [heq]
    dsimp only
    omega
  · rw [heq]

/-- The router finds no path exactly when the target is unreachable through
empty cells (for a target distinct from the origin, as in every move). -/
theorem evaluate_path_empty_iff_reach {b : Board} {src dst : Pos}
    (hsrc : b.inBounds src) (hne : dst ≠ src) :
    (b.evaluate_path src dst).1 = [] ↔ ¬ reach b src dst := by
  constructor
  · intro h hr
    obtain ⟨l, hl⟩ := hr
    obtain ⟨hinv, hstack⟩ := finalSearch_spec b src hsrc
    obtain ⟨kd, hkd, _⟩ := cost_of_route hstack hinv hl
    have hprev := (evaluate_path_empty_iff_prev b src dst).mp h
    exact hne (hinv.cost_src dst (by rw [hkd]; rfl) hprev)
  · intro h
    by_contra hc
    exact h ⟨_, (evaluate_path_success hsrc hc).1⟩

/-- A route between distinct endpoints has at least two cells. -/
theorem route_length_ge_two {b : Board} {l : List Pos} {src dst : Pos}
    (h : isRoute b l src dst) (hne : src ≠ dst) : 2 ≤ l.length := by
  obtain ⟨hnil, hh, hl, _, _, _⟩ := h
  cases l with
  | nil => exact absurd rfl hnil
  | cons a t =>
    cases t with
    | nil =>
      have h1 : a = src := by simpa using hh
      have h2 : a = dst := by simpa using hl
      exact absurd (h1 ▸ h2) hne
    | cons a' t' => simp

/-- On a board empty apart from the origin's ball, the router's path has
exactly `manhattan + 1` cells. -/
theorem evaluate_path_manhattan {b : Board} {src dst : Pos}
    (hsrc : b.inBounds src) (hdst : b.inBounds dst)
    (hemp : ∀ p : Pos, p ≠ src → b.inBounds p → b.colors p = none)
    (hne : dst ≠ src) :
    (b.evaluate_path src dst).1.length = manhattan src dst + 1 := by
  obtain ⟨l, hroute, hlen⟩ :=
    exists_geodesic (manhattan src dst) src dst rfl hsrc hdst hemp
  have hnonempty : (b.evaluate_path src dst).1 ≠ [] := by
    intro h
    exact (evaluate_path_empty_iff_reach hsrc hne).mp h ⟨l, hroute⟩
  obtain ⟨hsr, hopt, _⟩ := evaluate_path_success hsrc hnonempty
  have h1 := route_manhattan hsr
  have h2 := hopt l hroute
  omega


/-! ## Unfolding lemmas for move handling and the selection machine -/

theorem handle_ball_move_fail {b : Board} {src dst : Pos} {r : Rng}
    (h : (b.evaluate_path src dst).1 = []) :
    b.handle_ball_move src dst r = some ([.ImpossibleMove], b, r) := by
  unfold Board.handle_ball_move
  dsimp only
  rw [if_pos h, evaluate_path_fail_board h]

theorem handle_ball_move_lines {b : Board} {src dst : Pos} {r : Rng}
    (hpath : (b.evaluate_path src dst).1 ≠ [])
    (hformed : (b.evaluate_path src dst).2.evaluate_lines dst ≠ []) :
    b.handle_ball_move src dst r =
      some ([.MoveBall (b.evaluate_path src dst).1,
          .LineCompleted ((b.evaluate_path src dst).2.evaluate_lines dst),
          .UpdateScore ((b.evaluate_path src dst).2.score +
            ((b.evaluate_path src dst).2.evaluate_lines dst).length)],
        { (b.evaluate_path src dst).2 with
          colors := clearCells (b.evaluate_path src dst).2.colors
            ((b.evaluate_path src dst).2.evaluate_lines dst)
          score := (b.evaluate_path src dst).2.score +
            ((b.evaluate_path src dst).2.evaluate_lines dst).length }, r) := by
  unfold Board.handle_ball_move
  dsimp only
  rw [if_neg hpath, if_neg hformed]

theorem handle_ball_move_spawn {b : Board} {src dst : Pos} {r : Rng}
    {evs : List Event} {b2 : Board} {r2 : Rng}
    (hpath : (b.evaluate_path src dst).1 ≠ [])
    (hformed : (b.evaluate_path src dst).2.evaluate_lines dst = [])
    (hadd : (b.evaluate_path src dst).2.add_balls r = some (evs, b2, r2)) :
    b.handle_ball_move src dst r =
      some (.MoveBall (b.evaluate_path src dst).1 :: evs, b2, r2) := by
  unfold Board.handle_ball_move
  dsimp only
  rw [if_neg hpath, if_pos hformed, hadd]

theorem handle_action_noop {b : Board} {c r : Nat} {rng : Rng}
    (hin : b.inBounds (c, r)) (hemp : b.colors (c, r) = none)
    (hsel : b.selected_cell = none) :
    b.handle_action c r rng = some ([], b, rng) := by
  unfold Board.handle_action
  rw [if_pos hin]
  dsimp only
  rw [hemp, hsel]
  rfl

theorem handle_action_select {b : Board} {c r : Nat} {rng : Rng}
    (hin : b.inBounds (c, r)) (hocc : (b.colors (c, r)).isSome)
    (hsel : b.selected_cell = none) :
    b.handle_action c r rng =
      some ([.SelectBall (c, r)], { b with selected_cell := some (c, r) }, rng) := by
  unfold Board.handle_action
  rw [if_pos hin]
  dsimp only
  obtain ⟨v, hv⟩ := Option.isSome_iff_exists.mp hocc
  rw [hv, hsel]
  rfl

theorem handle_action_deselect {b : Board} {c r : Nat} {rng : Rng}
    (hin : b.inBounds (c, r)) (hocc : (b.colors (c, r)).isSome)
    (hsel : b.selected_cell = some (c, r)) :
    b.handle_action c r rng =
      some ([.DeselectBall (c, r)], { b with selected_cell := none }, rng) := by
  unfold Board.handle_action
  rw [if_pos hin]
  dsimp only
  obtain ⟨v, hv⟩ := Option.isSome_iff_exists.mp hocc
  rw [hv, hsel]
  dsimp only
  rw [if_pos rfl]
  rfl

theorem handle_action_reselect {b : Board} {c r : Nat} {rng : Rng} {s : Pos}
    (hin : b.inBounds (c, r)) (hocc : (b.colors (c, r)).isSome)
    (hsel : b.selected_cell = some s) (hne : s ≠ (c, r)) :
    b.handle_action c r rng =
      some ([.DeselectBall s, .SelectBall (c, r)],
        { b with selected_cell := some (c, r) }, rng) := by
  unfold Board.handle_action
  rw [if_pos hin]
  dsimp only
  obtain ⟨v, hv⟩ := Option.isSome_iff_exists.mp hocc
  rw [hv, hsel]
  dsimp only
  rw [if_neg hne]
  rfl

theorem handle_action_move {b : Board} {c r : Nat} {rng : Rng} {s : Pos}
    (hin : b.inBounds (c, r)) (hemp : b.colors (c, r) = none)
    (hsel : b.selected_cell = some s) :
    b.handle_action c r rng =
      match b.handle_ball_move s (c, r) rng with
      | none => none
      | some (events, b', r') =>
        if events = [.ImpossibleMove] then some (events, b', r')
        else some (events, { b' with selected_cell := none }, r') := by
  unfold Board.handle_action
  rw [if_pos hin]
  dsimp only
  rw [hemp, hsel]
  rfl

theorem handle_action_impossible {b : Board} {c r : Nat} {rng : Rng} {s : Pos}
    (hin : b.inBounds (c, r)) (hemp : b.colors (c, r) = none)
    (hsel : b.selected_cell = some s)
    (hfail : (b.evaluate_path s (c, r)).1 = []) :
    b.handle_action c r rng = some ([.ImpossibleMove], b, rng) := by
  rw [handle_action_move hin hemp hsel, handle_ball_move_fail hfail]
  rfl

theorem handle_ball_move_src_raises {b : Board} {src dst : Pos} {r : Rng}
    (hpath : (b.evaluate_path src dst).1 ≠ []) :
    b.handle_ball_move_src src dst r =
      .typeError (b.evaluate_path src dst).2 r := by
  unfold Board.handle_ball_move_src
  rw [if_neg hpath]

theorem handle_action_src_move {b : Board} {column row : Nat} {rng : Rng}
    {s : Pos} (hin : b.inBounds (column, row))
    (hemp : b.colors (column, row) = none)
    (hsel : b.selected_cell = some s) :
    b.handle_action_src column row rng =
      match b.handle_ball_move_src s (column, row) rng with
      | .ok events b' r' =>
        if events = [.ImpossibleMove] then .ok events b' r'
        else .ok events { b' with selected_cell := none } r'
      | .keyError => .keyError
      | .typeError b' r' => .typeError b' r' := by
  unfold Board.handle_action_src
  rw [if_pos hin]
  dsimp only
  rw [hemp, hsel]
  rfl

theorem handle_action_src_raises {b : Board} {column row : Nat} {rng : Rng}
    {s : Pos} (hin : b.inBounds (column, row))
    (hemp : b.colors (column, row) = none)
    (hsel : b.selected_cell = some s)
    (hpath : (b.evaluate_path s (column, row)).1 ≠ []) :
    b.handle_action_src column row rng =
      .typeError (b.evaluate_path s (column, row)).2 rng := by
  rw [handle_action_src_move hin hemp hsel,
    handle_ball_move_src_raises hpath]


/-! ## The spawner (`_add_balls`) -/

/-- Recognizer for `AddBall` events. -/
def Event.isAddBall : Event → Bool
  | .AddBall _ => true
  | _ => false

theorem countP_some_add_none {γ : Type} (f : Pos → Option γ) (l : List Pos) :
    l.countP (fun p => (f p).isSome) + l.countP (fun p => (f p).isNone) =
      l.length := by
  induction l with
  | nil => simp
  | cons a t ih =>
    rw [List.countP_cons, List.countP_cons]
    cases hf : f a <;> simp [hf] <;> omega

theorem emptyCount_eq_countP (b : Board) :
    b.emptyCount = b.allPositions.countP (fun p => (b.colors p).isNone) := by
  unfold Board.emptyCount Board.freeCells
  rw [List.countP_eq_length_filter]

theorem ballCount_add_emptyCount (b : Board) :
    b.ballCount + b.emptyCount = b.columns * b.rows := by
  rw [emptyCount_eq_countP]
  unfold Board.ballCount
  rw [countP_some_add_none, length_allPositions]

theorem emptyCount_pos_iff (b : Board) : 1 ≤ b.emptyCount ↔ b.freeCells ≠ [] := by
  unfold Board.emptyCount
  exact ⟨fun h => List.ne_nil_of_length_pos h, fun h => List.length_pos.mpr h⟩

theorem ballCount_upd_some {b : Board} {target : Pos} {col : BallColor}
    (htin : target ∈ b.allPositions) (hemp : b.colors target = none) :
    ({ b with colors := upd b.colors target (some col) } : Board).ballCount =
      b.ballCount + 1 := by
  unfold Board.ballCount
  exact countP_upd_some_of_none (allPositions_nodup b) htin hemp col

theorem emptyCount_upd_some {b : Board} {target : Pos} {col : BallColor}
    (htin : target ∈ b.allPositions) (hemp : b.colors target = none) :
    ({ b with colors := upd b.colors target (some col) } : Board).emptyCount + 1 =
      b.emptyCount := by
  have h1 := ballCount_add_emptyCount b
  have h2 := ballCount_add_emptyCount
    { b with colors := upd b.colors target (some col) }
  have h3 := @ballCount_upd_some b target col htin hemp
  simp only at h2
  omega

/-- `_add_random_ball` on a board with a free cell: a free cell gets a color,
everything else is untouched. -/
theorem add_random_ball_spec {b : Board} {r : Rng} (h : b.freeCells ≠ []) :
    ∃ target col r', b.add_random_ball r =
      some ({ b with colors := upd b.colors target (some col) }, target, r') ∧
      target ∈ b.allPositions ∧ b.colors target = none := by
  unfold Board.add_random_ball
  have hne : b.freeCells.isEmpty = false := by
    cases hf : b.freeCells with
    | nil => exact absurd hf h
    | cons a t => rfl
  simp only [hne]
  refine ⟨rngChoice b.freeCells (0, 0) (r 0), rngChoice allColors .RED (r 1),
    fun n => r (n + 2), rfl, ?_, ?_⟩
  · have hmem : rngChoice b.freeCells (0, 0) (r 0) ∈ b.freeCells := by
      unfold rngChoice
      have hlen : 0 < b.freeCells.length := List.length_pos.mpr h
      have hlt : r 0 % b.freeCells.length < b.freeCells.length :=
        Nat.mod_lt _ hlen
      rw [List.getD_eq_getElem _ _ hlt]
      exact List.getElem_mem _
    exact List.mem_of_mem_filter hmem
  · have hmem : rngChoice b.freeCells (0, 0) (r 0) ∈ b.freeCells := by
      unfold rngChoice
      have hlen : 0 < b.freeCells.length := List.length_pos.mpr h
      have hlt : r 0 % b.freeCells.length < b.freeCells.length :=
        Nat.mod_lt _ hlen
      rw [List.getD_eq_getElem _ _ hlt]
      exact List.getElem_mem _
    have := List.of_mem_filter hmem
    exact Option.isNone_iff_eq_none.mp this

/-- Unrolled contract of the `_add_balls` loop with `k + 1` iterations left:
on a board with an empty cell it spawns `min (k+1) empties` balls, emits one
`AddBall` per spawn, emits `GameOver` exactly when the board fills, and
touches nothing but the spawned cells. -/
theorem addBallsAux_spec :
    ∀ (k : Nat) (b : Board) (r : Rng), 1 ≤ b.emptyCount →
    ∃ evs b' r', addBallsAux (k + 1) b r = some (evs, b', r') ∧
      b'.ballCount = b.ballCount + min (k + 1) b.emptyCount ∧
      evs.countP Event.isAddBall = min (k + 1) b.emptyCount ∧
      (Event.GameOver ∈ evs ↔ b.emptyCount ≤ k + 1) ∧
      b'.columns = b.columns ∧ b'.rows = b.rows ∧ b'.score = b.score ∧
      b'.selected_cell = b.selected_cell ∧
      (∀ p, (b.colors p).isSome → (b'.colors p).isSome) ∧
      (∀ e ∈ evs, (∃ p, e = .AddBall p) ∨ e = .GameOver) := by
  intro k
  induction k with
  | zero =>
    intro b r h
    obtain ⟨target, col, r', heq, htin, hemp⟩ :=
      add_random_ball_spec ((emptyCount_pos_iff b).mp h)
    have hcount := @ballCount_upd_some b target col htin hemp
    have hempty := @emptyCount_upd_some b target col htin hemp
    unfold addBallsAux
    rw [heq]
    dsimp only
    by_cases hfull :
        ({ b with colors := upd b.colors target (some col) } : Board).freeCells.isEmpty
    · rw [if_pos hfull]
      have hE : b.emptyCount = 1 := by
        have h0 : ({ b with colors := upd b.colors target (some col) } :
            Board).emptyCount = 0 := by
          unfold Board.emptyCount
          rw [List.isEmpty_iff] at hfull
          rw [hfull]
          rfl
        omega
      refine ⟨[.AddBall target, .GameOver], _, r', rfl, ?_, ?_, ?_, rfl, rfl,
        rfl, rfl, ?_, ?_⟩
      · rw [hcount, hE]
        omega
      · rw [hE]
        show (1 : Nat) = min (0 + 1) 1
        omega
      · constructor
        · intro _
          omega
        · intro _
          simp
      · intro p hp
        by_cases hpt : p = target
        · subst hpt
          show (upd b.colors p (some col) p).isSome
          rw [upd_self]
          rfl
        · show (upd b.colors target (some col) p).isSome
          rw [upd_ne _ _ hpt]
          exact hp
      · intro e he
        rcases List.mem_cons.mp he with rfl | he'
        · exact Or.inl ⟨target, rfl⟩
        · rcases List.mem_cons.mp he' with rfl | he''
          · exact Or.inr rfl
          · simp at he''
    · rw [if_neg hfull]
      have hE : 2 ≤ b.emptyCount := by
        have h0 : ({ b with colors := upd b.colors target (some col) } :
            Board).freeCells ≠ [] := by
          intro hc
          rw [← List.isEmpty_iff] at hc
          exact hfull hc
        have := (emptyCount_pos_iff _).mpr h0
        omega
      unfold addBallsAux
      refine ⟨[.AddBall target], _, r', rfl, ?_, ?_, ?_, rfl, rfl, rfl, rfl,
        ?_, ?_⟩
      · rw [hcount]
        omega
      · show (1 : Nat) = min 1 b.emptyCount
        omega
      · constructor
        · intro hmem
          simp at hmem
        · intro hle
          omega
      · intro p hp
        by_cases hpt : p = target
        · subst hpt
          show (upd b.colors p (some col) p).isSome
          rw [upd_self]
          rfl
        · show (upd b.colors target (some col) p).isSome
          rw [upd_ne _ _ hpt]
          exact hp
      · intro e he
        rcases List.mem_cons.mp he with rfl | he'
        · exact Or.inl ⟨target, rfl⟩
        · simp at he'
  | succ k ih =>
    intro b r h
    obtain ⟨target, col, r', heq, htin, hemp⟩ :=
      add_random_ball_spec ((emptyCount_pos_iff b).mp h)
    have hcount := @ballCount_upd_some b target col htin hemp
    have hempty := @emptyCount_upd_some b target col htin hemp
    unfold addBallsAux
    rw [heq]
    dsimp only
    by_cases hfull :
        ({ b with colors := upd b.colors target (some col) } : Board).freeCells.isEmpty
    · rw [if_pos hfull]
      have hE : b.emptyCount = 1 := by
        have h0 : ({ b with colors := upd b.colors target (some col) } :
            Board).emptyCount = 0 := by
          unfold Board.emptyCount
          rw [List.isEmpty_iff] at hfull
          rw [hfull]
          rfl
        omega
      refine ⟨[.AddBall target, .GameOver], _, r', rfl, ?_, ?_, ?_, rfl, rfl,
        rfl, rfl, ?_, ?_⟩
      · rw [hcount, hE]
        omega
      · rw [hE]
        show (1 : Nat) = min (k + 1 + 1) 1
        omega
      · constructor
        · intro _
          omega
        · intro _
          simp
      · intro p hp
        by_cases hpt : p = target
        · subst hpt
          show (upd b.colors p (some col) p).isSome
          rw [upd_self]
          rfl
        · show (upd b.colors target (some col) p).isSome
          rw [upd_ne _ _ hpt]
          exact hp
      · intro e he
        rcases List.mem_cons.mp he with rfl | he'
        · exact Or.inl ⟨target, rfl⟩
        · rcases List.mem_cons.mp he' with rfl | he''
          · exact Or.inr rfl
          · simp at he''
    · rw [if_neg hfull]
      have hE1 : 1 ≤ ({ b with colors := upd b.colors target (some col) } :
          Board).emptyCount := by
        refine (emptyCount_pos_iff _).mpr ?_
        intro hc
        rw [← List.isEmpty_iff] at hc
        exact hfull hc
      obtain ⟨evs, b', r'', hrec, hbc, hcnt, hgo, hcol', hrow', hsc', hsel',
        hmono, hshape⟩ := ih { b with colors := upd b.colors target (some col) } r' hE1
      rw [hrec]
      refine ⟨.AddBall target :: evs, b', r'', rfl, ?_, ?_, ?_, hcol', hrow',
        hsc', hsel', ?_, ?_⟩
      · rw [hbc, hcount]
        omega
      · rw [List.countP_cons, hcnt]
        have hone : (if (Event.AddBall target).isAddBall = true
            then (1 : Nat) else 0) = 1 := rfl
        rw [hone]
        omega
      · rw [List.mem_cons]
        constructor
        · intro hmem
          rcases hmem with hmem | hmem
          · exact absurd hmem (by simp)
          · have := hgo.mp hmem
            omega
        · intro hle
          right
          refine hgo.mpr ?_
          omega
      · intro p hp
        refine hmono p ?_
        by_cases hpt : p = target
        · subst hpt
          show (upd b.colors p (some col) p).isSome
          rw [upd_self]
          rfl
        · show (upd b.colors target (some col) p).isSome
          rw [upd_ne _ _ hpt]
          exact hp
      · intro e he
        rcases List.mem_cons.mp he with rfl | he'
        · exact Or.inl ⟨target, rfl⟩
        · exact hshape e he'

/-- The contract of `_add_balls` (`addBallsAux 3`). -/
theorem add_balls_spec {b : Board} {r : Rng} (h : 1 ≤ b.emptyCount) :
    ∃ evs b' r', b.add_balls r = some (evs, b', r') ∧
      b'.ballCount = b.ballCount + min 3 b.emptyCount ∧
      evs.countP Event.isAddBall = min 3 b.emptyCount ∧
      (Event.GameOver ∈ evs ↔ b.emptyCount ≤ 3) ∧
      b'.columns = b.columns ∧ b'.rows = b.rows ∧ b'.score = b.score ∧
      b'.selected_cell = b.selected_cell ∧
      (∀ p, (b.colors p).isSome → (b'.colors p).isSome) ∧
      (∀ e ∈ evs, (∃ p, e = .AddBall p) ∨ e = .GameOver) :=
  addBallsAux_spec 2 b r h


/-! ## The line matcher (`_evaluate_lines`) -/

theorem scanUp_mem {b : Board} {col : Nat} {c : Option BallColor} :
    ∀ (rr : Nat) (p : Pos), p ∈ scanUp b col c rr →
    p.1 = col ∧ 1 ≤ p.2 ∧ p.2 ≤ rr := by
  intro rr
  induction rr with
  | zero =>
    intro p hp
    simp [scanUp] at hp
  | succ rr ih =>
    intro p hp
    unfold scanUp at hp
    by_cases hc : b.colors (col, rr + 1) = c
    · rw [if_pos hc] at hp
      rcases List.mem_append.mp hp with hp' | hp'
      · have := ih p hp'
        omega
      · rw [List.mem_singleton.mp hp']
        exact ⟨rfl, by omega, by omega⟩
    · rw [if_neg hc] at hp
      simp at hp

theorem scanDownAux_mem {b : Board} {col : Nat} {c : Option BallColor} :
    ∀ (fuel row : Nat) (p : Pos), p ∈ scanDownAux b col c fuel row →
    p.1 = col ∧ row ≤ p.2 := by
  intro fuel
  induction fuel with
  | zero =>
    intro row p hp
    simp [scanDownAux] at hp
  | succ fuel ih =>
    intro row p hp
    unfold scanDownAux at hp
    by_cases hc : b.colors (col, row) = c
    · rw [if_pos hc] at hp
      rcases List.mem_cons.mp hp with rfl | hp'
      · exact ⟨rfl, by omega⟩
      · have := ih (row + 1) p hp'
        omega
    · rw [if_neg hc] at hp
      simp at hp

theorem scanLeft_mem {b : Board} {row : Nat} {c : Option BallColor} :
    ∀ (cc : Nat) (p : Pos), p ∈ scanLeft b row c cc →
    p.2 = row ∧ 1 ≤ p.1 ∧ p.1 ≤ cc := by
  intro cc
  induction cc with
  | zero =>
    intro p hp
    simp [scanLeft] at hp
  | succ cc ih =>
    intro p hp
    unfold scanLeft at hp
    by_cases hc : b.colors (cc + 1, row) = c
    · rw [if_pos hc] at hp
      rcases List.mem_append.mp hp with hp' | hp'
      · have := ih p hp'
        omega
      · rw [List.mem_singleton.mp hp']
        exact ⟨rfl, by omega, by omega⟩
    · rw [if_neg hc] at hp
      simp at hp

theorem scanRightAux_mem {b : Board} {row : Nat} {c : Option BallColor} :
    ∀ (fuel col : Nat) (p : Pos), p ∈ scanRightAux b row c fuel col →
    p.2 = row ∧ col ≤ p.1 := by
  intro fuel
  induction fuel with
  | zero =>
    intro col p hp
    simp [scanRightAux] at hp
  | succ fuel ih =>
    intro col p hp
    unfold scanRightAux at hp
    by_cases hc : b.colors (col, row) = c
    · rw [if_pos hc] at hp
      rcases List.mem_cons.mp hp with rfl | hp'
      · exact ⟨rfl, by omega⟩
      · have := ih (col + 1) p hp'
        omega
    · rw [if_neg hc] at hp
      simp at hp

/-- The landing cell occurs exactly once in its horizontal run. -/
theorem count_cell_hLine {b : Board} {cell : Pos} (h1 : 1 ≤ cell.1) :
    (b.hLine cell).count cell = 1 := by
  unfold Board.hLine
  rw [List.count_append, List.count_append]
  have hleft : (scanLeft b cell.2 (b.colors cell) (cell.1 - 1)).count cell = 0 := by
    rw [List.count_eq_zero]
    intro hmem
    have := scanLeft_mem _ _ hmem
    omega
  have hright :
      (scanRight b cell.2 (b.colors cell) (cell.1 + 1)).count cell = 0 := by
    rw [List.count_eq_zero]
    intro hmem
    have := scanRightAux_mem _ _ _ hmem
    omega
  rw [hleft, hright]
  simp

/-- The landing cell occurs exactly once in its vertical run. -/
theorem count_cell_vLine {b : Board} {cell : Pos} (h2 : 1 ≤ cell.2) :
    (b.vLine cell).count cell = 1 := by
  unfold Board.vLine
  rw [List.count_append, List.count_append]
  have hup : (scanUp b cell.1 (b.colors cell) (cell.2 - 1)).count cell = 0 := by
    rw [List.count_eq_zero]
    intro hmem
    have := scanUp_mem _ _ hmem
    omega
  have hdown :
      (scanDown b cell.1 (b.colors cell) (cell.2 + 1)).count cell = 0 := by
    rw [List.count_eq_zero]
    intro hmem
    have := scanDownAux_mem _ _ _ hmem
    omega
  rw [hup, hdown]
  simp

theorem cell_mem_hLine (b : Board) (cell : Pos) : cell ∈ b.hLine cell := by
  unfold Board.hLine
  simp

theorem cell_mem_vLine (b : Board) (cell : Pos) : cell ∈ b.vLine cell := by
  unfold Board.vLine
  simp

theorem hLine_length_pos (b : Board) (cell : Pos) : 1 ≤ (b.hLine cell).length :=
  List.length_pos.mpr (List.ne_nil_of_mem (cell_mem_hLine b cell))

theorem vLine_length_pos (b : Board) (cell : Pos) : 1 ≤ (b.vLine cell).length :=
  List.length_pos.mpr (List.ne_nil_of_mem (cell_mem_vLine b cell))

theorem evaluate_lines_none {b : Board} {cell : Pos}
    (hh : (b.hLine cell).length < MIN_BALLS_IN_LINE)
    (hv : (b.vLine cell).length < MIN_BALLS_IN_LINE) :
    b.evaluate_lines cell = [] := by
  unfold Board.evaluate_lines
  rw [if_neg (by omega), if_neg (by omega)]
  rfl

theorem evaluate_lines_h_only {b : Board} {cell : Pos}
    (hh : MIN_BALLS_IN_LINE ≤ (b.hLine cell).length)
    (hv : (b.vLine cell).length < MIN_BALLS_IN_LINE) :
    b.evaluate_lines cell = b.hLine cell := by
  unfold Board.evaluate_lines
  rw [if_pos hh, if_neg (by omega)]
  simp

theorem evaluate_lines_v_only {b : Board} {cell : Pos}
    (hh : (b.hLine cell).length < MIN_BALLS_IN_LINE)
    (hv : MIN_BALLS_IN_LINE ≤ (b.vLine cell).length) :
    b.evaluate_lines cell = b.vLine cell := by
  unfold Board.evaluate_lines
  rw [if_neg (by omega), if_pos hv]
  rfl

theorem evaluate_lines_both {b : Board} {cell : Pos}
    (hh : MIN_BALLS_IN_LINE ≤ (b.hLine cell).length)
    (hv : MIN_BALLS_IN_LINE ≤ (b.vLine cell).length) :
    b.evaluate_lines cell = b.hLine cell ++ b.vLine cell := by
  unfold Board.evaluate_lines
  rw [if_pos hh, if_pos hv]

theorem clearCells_eq {l : List Pos} :
    ∀ (f : Pos → Option BallColor) (p : Pos),
    clearCells f l p = if p ∈ l then none else f p := by
  induction l with
  | nil =>
    intro f p
    simp [clearCells]
  | cons a t ih =>
    intro f p
    show clearCells (upd f a none) t p = _
    rw [ih]
    by_cases hpt : p ∈ t
    · rw [if_pos hpt, if_pos (List.mem_cons_of_mem a hpt)]
    · rw [if_neg hpt]
      by_cases hpa : p = a
      · subst hpa
        rw [upd_self, if_pos (List.mem_cons_self _ _)]
      · rw [upd_ne _ _ hpa, if_neg (by
          intro hc
          rcases List.mem_cons.mp hc with h | h
          · exact hpa h
          · exact hpt h)]

theorem clearCells_mem {f : Pos → Option BallColor} {l : List Pos} {p : Pos}
    (hp : p ∈ l) : clearCells f l p = none := by
  rw [clearCells_eq, if_pos hp]

theorem clearCells_not_mem {f : Pos → Option BallColor} {l : List Pos} {p : Pos}
    (hp : p ∉ l) : clearCells f l p = f p := by
  rw [clearCells_eq, if_neg hp]


/-! ## The selection invariant -/

theorem add_random_ball_success {b : Board} {r : Rng}
    {x : Board × Pos × Rng} (h : b.add_random_ball r = some x) :
    b.freeCells ≠ [] := by
  intro hc
  unfold Board.add_random_ball at h
  simp only [hc] at h
  exact absurd h (by simp)

theorem addBalls_success_empty {b : Board} {r : Rng} {evs : List Event}
    {b' : Board} {r' : Rng} (h : b.add_balls r = some (evs, b', r')) :
    1 ≤ b.emptyCount := by
  unfold Board.add_balls addBallsAux at h
  cases hadd : b.add_random_ball r with
  | none =>
    rw [hadd] at h
    exact absurd h (by simp)
  | some x =>
    exact (emptyCount_pos_iff b).mpr (add_random_ball_success hadd)

/-- `_handle_ball_move` returns `[ImpossibleMove]` only from the failure
branch, which leaves the board untouched. -/
theorem handle_ball_move_inv {b : Board} {src dst : Pos} {rng : Rng}
    {evs0 : List Event} {b0 : Board} {r0 : Rng}
    (h : b.handle_ball_move src dst rng = some (evs0, b0, r0)) :
    (evs0 = [.ImpossibleMove] ∧ b0 = b) ∨ evs0 ≠ [.ImpossibleMove] := by
  by_cases hpath : (b.evaluate_path src dst).1 = []
  · rw [handle_ball_move_fail hpath] at h
    left
    have h1 := Option.some.inj h
    exact ⟨(congrArg Prod.fst h1).symm, (congrArg (fun x => x.2.1) h1).symm⟩
  · by_cases hformed : (b.evaluate_path src dst).2.evaluate_lines dst = []
    · cases hadd : (b.evaluate_path src dst).2.add_balls rng with
      | none =>
        unfold Board.handle_ball_move at h
        dsimp only at h
        rw [if_neg hpath, if_pos hformed, hadd] at h
        exact absurd h (by simp)
      | some x =>
        obtain ⟨evs1, b1, r1⟩ := x
        rw [handle_ball_move_spawn hpath hformed hadd] at h
        right
        have h1 := congrArg Prod.fst (Option.some.inj h)
        simp only at h1
        rw [← h1]
        simp
    · rw [handle_ball_move_lines hpath hformed] at h
      right
      have h1 := congrArg Prod.fst (Option.some.inj h)
      simp only at h1
      rw [← h1]
      simp

/-- A successful action preserves the selection invariant. -/
theorem selInv_action {b : Board} {c r : Nat} {rng : Rng} {evs : List Event}
    {b' : Board} {rng' : Rng} (hinv : SelInv b)
    (h : b.handle_action c r rng = some (evs, b', rng')) : SelInv b' := by
  by_cases hin : b.inBounds (c, r)
  swap
  · unfold Board.handle_action at h
    rw [if_neg hin] at h
    exact absurd h (by simp)
  cases hcol : b.colors (c, r) with
  | none =>
    cases hsel : b.selected_cell with
    | none =>
      rw [handle_action_noop hin hcol hsel] at h
      have h1 := Option.some.inj h
      have hb : b = b' := congrArg (fun x => x.2.1) h1
      subst hb
      exact hinv
    | some s =>
      rw [handle_action_move hin hcol hsel] at h
      cases hmove : b.handle_ball_move s (c, r) rng with
      | none =>
        rw [hmove] at h
        exact absurd h (by simp)
      | some x =>
        obtain ⟨evs0, b0, r0⟩ := x
        rw [hmove] at h
        dsimp only at h
        by_cases himp : evs0 = [Event.ImpossibleMove]
        · rw [if_pos himp] at h
          have h1 := Option.some.inj h
          have hb : b0 = b' := congrArg (fun x => x.2.1) h1
          subst hb
          rcases handle_ball_move_inv hmove with ⟨_, hb0⟩ | hne
          · rw [hb0]
            exact hinv
          · exact absurd himp hne
        · rw [if_neg himp] at h
          have h1 := Option.some.inj h
          have hb : ({ b0 with selected_cell := none } : Board) = b' :=
            congrArg (fun x => x.2.1) h1
          subst hb
          intro t ht
          exact absurd (ht : (none : Option Pos) = some t) (by simp)
  | some v =>
    have hocc : (b.colors (c, r)).isSome := by rw [hcol]; rfl
    cases hsel : b.selected_cell with
    | none =>
      rw [handle_action_select hin hocc hsel] at h
      have h1 := Option.some.inj h
      have hb : ({ b with selected_cell := some (c, r) } : Board) = b' :=
        congrArg (fun x => x.2.1) h1
      subst hb
      intro t ht
      have htc : t = (c, r) :=
        (Option.some.inj (ht : some (c, r) = some t)).symm
      subst htc
      exact hocc
    | some s =>
      by_cases hsc : s = (c, r)
      · subst hsc
        rw [handle_action_deselect hin hocc hsel] at h
        have h1 := Option.some.inj h
        have hb : ({ b with selected_cell := none } : Board) = b' :=
          congrArg (fun x => x.2.1) h1
        subst hb
        intro t ht
        exact absurd (ht : (none : Option Pos) = some t) (by simp)
      · rw [handle_action_reselect hin hocc hsel hsc] at h
        have h1 := Option.some.inj h
        have hb : ({ b with selected_cell := some (c, r) } : Board) = b' :=
          congrArg (fun x => x.2.1) h1
        subst hb
        intro t ht
        have htc : t = (c, r) :=
          (Option.some.inj (ht : some (c, r) = some t)).symm
        subst htc
        exact hocc

/-- Successful initialization preserves the selection invariant. -/
theorem selInv_init {b : Board} {rng : Rng} {evs : List Event} {b' : Board}
    {rng' : Rng} (hinv : SelInv b)
    (h : b.handle_initialization rng = some (evs, b', rng')) : SelInv b' := by
  have hE : 1 ≤ b.emptyCount := addBalls_success_empty h
  obtain ⟨evs2, b2, r2, heq, _, _, _, _, _, _, hsel, hmono, _⟩ :=
    @add_balls_spec b rng hE
  rw [show b.handle_initialization rng = b.add_balls rng from rfl, heq] at h
  have h1 := Option.some.inj h
  have hb' : b2 = b' := congrArg (fun x => x.2.1) h1
  subst hb'
  intro t ht
  rw [hsel] at ht
  exact hmono t (hinv t ht)


/-! ## Helper facts about the post-move board -/

theorem evaluate_path_board_facts {b : Board} {src dst : Pos}
    (hsrc : b.inBounds src) (hpath : (b.evaluate_path src dst).1 ≠ []) :
    (b.evaluate_path src dst).2.score = b.score ∧
    (b.evaluate_path src dst).2.selected_cell = b.selected_cell ∧
    (b.evaluate_path src dst).2.colors src = none := by
  obtain ⟨_, _, hb⟩ := evaluate_path_success hsrc hpath
  rw [hb]
  exact ⟨rfl, rfl, upd_self _ _ _⟩

theorem emptyCount_pos_of_none {b : Board} {q : Pos} (hin : b.inBounds q)
    (hemp : b.colors q = none) : 1 ≤ b.emptyCount := by
  rw [emptyCount_eq_countP]
  have h0 : 0 < b.allPositions.countP (fun p => (b.colors p).isNone) :=
    List.countP_pos_iff.mpr ⟨q, mem_allPositions.mpr hin, by rw [hemp]; rfl⟩
  omega

theorem b1_emptyCount_pos {b : Board} {src dst : Pos} (hsrc : b.inBounds src)
    (hpath : (b.evaluate_path src dst).1 ≠ []) :
    1 ≤ (b.evaluate_path src dst).2.emptyCount := by
  have hnone := (evaluate_path_board_facts hsrc hpath).2.2
  refine emptyCount_pos_of_none ?_ hnone
  obtain ⟨_, _, hb⟩ := evaluate_path_success hsrc hpath
  rw [hb]
  exact hsrc

/-! ## Witness boards -/

/-- A 2×1 board: a red ball at (1,1), selected. -/
def c1Board : Board :=
  { columns := 2
    rows := 1
    colors := fun p => if p = ((1, 1) : Pos) then some .RED else none
    selected_cell := some (1, 1) }

/-- A 2×1 board: a red ball at (1,1), nothing selected. -/
def c2Board : Board :=
  { columns := 2
    rows := 1
    colors := fun p => if p = ((1, 1) : Pos) then some .RED else none }

/-- A 3×1 board: the selected ball at (1,1) is walled off from the empty
cell (3,1) by the ball at (2,1). -/
def c3Board : Board :=
  { columns := 3
    rows := 1
    colors := fun p =>
      if p = ((1, 1) : Pos) ∨ p = ((2, 1) : Pos) then some .RED else none
    selected_cell := some (1, 1) }

/-- A 2×2 board with a single red ball at (1,1). -/
def c4Board : Board :=
  { columns := 2
    rows := 2
    colors := fun p => if p = ((1, 1) : Pos) then some .RED else none }

/-- A 2×2 board with a single red ball at (1,1). -/
def c5Board : Board :=
  { columns := 2
    rows := 2
    colors := fun p => if p = ((1, 1) : Pos) then some .RED else none }

/-- A 2×1 board with a single red ball at (1,1). -/
def c6Board : Board :=
  { columns := 2
    rows := 1
    colors := fun p => if p = ((1, 1) : Pos) then some .RED else none }

/-- A 6×1 board: red balls at columns 1–4 and 6; moving the ball at (6,1) to
(5,1) completes a horizontal run of exactly 5. -/
def c7Board : Board :=
  { columns := 6
    rows := 1
    colors := fun p =>
      if p = ((1, 1) : Pos) ∨ p = ((2, 1) : Pos) ∨ p = ((3, 1) : Pos) ∨
        p = ((4, 1) : Pos) ∨ p = ((6, 1) : Pos) then some .RED else none }

/-- A 2×1 board with a single red ball at (1,1); moving it to (2,1) forms no
line and triggers the spawner. -/
def c8Board : Board :=
  { columns := 2
    rows := 1
    colors := fun p => if p = ((1, 1) : Pos) then some .RED else none }

/-- A 6×6 board: moving the red ball at (2,1) to (2,2) simultaneously
completes a 5-ball horizontal run (row 2) and a 5-ball vertical run
(column 2) through the landing cell. -/
def c10Board : Board :=
  { columns := 6
    rows := 6
    colors := fun p =>
      if p = ((2, 3) : Pos) ∨ p = ((2, 4) : Pos) ∨ p = ((2, 5) : Pos) ∨
        p = ((2, 6) : Pos) ∨ p = ((3, 2) : Pos) ∨ p = ((4, 2) : Pos) ∨
        p = ((5, 2) : Pos) ∨ p = ((6, 2) : Pos) ∨ p = ((2, 1) : Pos)
      then some .RED else none }

/-! ## Claim theorems -/

/-- C1: for a successful move, `board.py`'s `_handle_ball_move` puts a
`MoveBall` event carrying the full ordered route (origin to destination
inclusive) first in the emitted sequence — evaluated here at a concrete
successful move.  This is the very construction (`MoveBall(path=path)`) that
`events.py`'s declaration `MoveBall(from_cell, to_cell)` rejects: the Python
program raises `TypeError` at this input instead of emitting the events. -/
theorem c1_first_event_move_ball_payload :
    (c1Board.handle_action 2 1 (fun _ => 0 : Rng)).map (fun x => x.1) =
      some [.MoveBall [(1, 1), (2, 1)], .AddBall (1, 1), .GameOver] := by
  decide

/-- C2: the selection state machine: with no selection, clicking a ball
emits `[SelectBall]` and selects it; clicking the selected cell emits
`[DeselectBall]` and clears the selection; clicking a different ball emits
`[DeselectBall old, SelectBall new]` in that order and selects the new cell;
with no selection, clicking an empty cell emits nothing and changes
nothing. -/
theorem c2_selection_state_machine (b : Board) (c r : Nat) (rng : Rng)
    (hin : b.inBounds (c, r)) :
    (b.selected_cell = none → (b.colors (c, r)).isSome →
      b.handle_action c r rng =
        some ([.SelectBall (c, r)],
          { b with selected_cell := some (c, r) }, rng)) ∧
    (b.selected_cell = some (c, r) → (b.colors (c, r)).isSome →
      b.handle_action c r rng =
        some ([.DeselectBall (c, r)], { b with selected_cell := none }, rng)) ∧
    (∀ s, b.selected_cell = some s → s ≠ (c, r) → (b.colors (c, r)).isSome →
      b.handle_action c r rng =
        some ([.DeselectBall s, .SelectBall (c, r)],
          { b with selected_cell := some (c, r) }, rng)) ∧
    (b.selected_cell = none → b.colors (c, r) = none →
      b.handle_action c r rng = some ([], b, rng)) :=
  ⟨fun hsel hocc => handle_action_select hin hocc hsel,
   fun hsel hocc => handle_action_deselect hin hocc hsel,
   fun _ hsel hne hocc => handle_action_reselect hin hocc hsel hne,
   fun hsel hemp => handle_action_noop hin hemp hsel⟩

theorem c2_selection_state_machine_witness :
    c2Board.inBounds (1, 1) ∧
    c2Board.handle_action 1 1 (fun _ => 0 : Rng) =
      some ([.SelectBall (1, 1)],
        { c2Board with selected_cell := some (1, 1) }, (fun _ => 0 : Rng)) :=
  ⟨by decide,
    (c2_selection_state_machine c2Board 1 1 (fun _ => 0 : Rng) (by decide)).1
      rfl (by decide)⟩

/-- C3: clicking an empty cell unreachable from the selected ball through
empty cells emits exactly `[ImpossibleMove]` and returns the board
unchanged: occupancy, score and selection are all preserved (the result
board is the input board itself). -/
theorem c3_impossible_move (b : Board) (c r : Nat) (rng : Rng) (s : Pos)
    (col : BallColor) (hin : b.inBounds (c, r)) (hsin : b.inBounds s)
    (hsel : b.selected_cell = some s) (hocc : b.colors s = some col)
    (hemp : b.colors (c, r) = none) (hunreach : ¬ reach b s (c, r)) :
    b.handle_action c r rng = some ([.ImpossibleMove], b, rng) := by
  have hne : ((c, r) : Pos) ≠ s := by
    intro hcs
    rw [hcs, hocc] at hemp
    exact absurd hemp (by simp)
  exact handle_action_impossible hin hemp hsel
    ((evaluate_path_empty_iff_reach hsin hne).mpr hunreach)

theorem c3_impossible_move_witness :
    ¬ reach c3Board (1, 1) (3, 1) ∧
    c3Board.handle_action 3 1 (fun _ => 0 : Rng) =
      some ([.ImpossibleMove], c3Board, (fun _ => 0 : Rng)) := by
  have hfail : (c3Board.evaluate_path (1, 1) (3, 1)).1 = [] := by decide
  have hunreach : ¬ reach c3Board (1, 1) (3, 1) :=
    (@evaluate_path_empty_iff_reach c3Board (1, 1) (3, 1)
      (by decide) (by decide)).mp hfail
  exact ⟨hunreach, c3_impossible_move c3Board 3 1 (fun _ => 0 : Rng) (1, 1)
    .RED (by decide) (by decide) rfl (by decide) (by decide) hunreach⟩

/-- C4: the path router returns an empty sequence exactly when no path of
4-directionally adjacent empty cells connects the occupied origin to the
empty target; on success the returned sequence starts at the origin, ends at
the target, has at least two cells, and consecutive cells are orthogonally
adjacent. -/
theorem c4_path_router_contract (b : Board) (src dst : Pos) (col : BallColor)
    (hsrc : b.inBounds src) (hocc : b.colors src = some col)
    (hemp : b.colors dst = none) :
    ((b.evaluate_path src dst).1 = [] ↔ ¬ reach b src dst) ∧
    ((b.evaluate_path src dst).1 ≠ [] →
      (b.evaluate_path src dst).1.head? = some src ∧
      (b.evaluate_path src dst).1.getLast? = some dst ∧
      2 ≤ (b.evaluate_path src dst).1.length ∧
      List.Chain' adj (b.evaluate_path src dst).1) := by
  have hne : dst ≠ src := by
    intro h
    rw [h, hocc] at hemp
    exact absurd hemp (by simp)
  refine ⟨evaluate_path_empty_iff_reach hsrc hne, ?_⟩
  intro hpath
  obtain ⟨hroute, _, _⟩ := evaluate_path_success hsrc hpath
  obtain ⟨_, hh, hl, hch, _, _⟩ := hroute
  exact ⟨hh, hl, route_length_ge_two ⟨(evaluate_path_success hsrc hpath).1.1,
    hh, hl, hch, (evaluate_path_success hsrc hpath).1.2.2.2.2.1,
    (evaluate_path_success hsrc hpath).1.2.2.2.2.2⟩ (Ne.symm hne), hch⟩

theorem c4_path_router_contract_witness :
    c4Board.inBounds (1, 1) ∧ c4Board.colors (1, 1) = some .RED ∧
    c4Board.colors (2, 2) = none ∧
    (((c4Board.evaluate_path (1, 1) (2, 2)).1 = [] ↔
        ¬ reach c4Board (1, 1) (2, 2)) ∧
      ((c4Board.evaluate_path (1, 1) (2, 2)).1 ≠ [] →
        (c4Board.evaluate_path (1, 1) (2, 2)).1.head? = some (1, 1) ∧
        (c4Board.evaluate_path (1, 1) (2, 2)).1.getLast? = some (2, 2) ∧
        2 ≤ (c4Board.evaluate_path (1, 1) (2, 2)).1.length ∧
        List.Chain' adj (c4Board.evaluate_path (1, 1) (2, 2)).1)) :=
  ⟨by decide, by decide, by decide,
    c4_path_router_contract c4Board (1, 1) (2, 2) .RED (by decide) (by decide)
      (by decide)⟩

/-- C5: on a board that is empty apart from the moving ball at the origin,
the router's path between any two distinct cells has exactly
`manhattan + 1` cells; and whenever a path is found, its cell count is never
below `manhattan + 1`. -/
theorem c5_path_length_manhattan (b : Board) (src dst : Pos) (col : BallColor)
    (hsrc : b.inBounds src) (hdst : b.inBounds dst)
    (hocc : b.colors src = some col) (hne : dst ≠ src) :
    ((∀ p : Pos, p ≠ src → b.inBounds p → b.colors p = none) →
      (b.evaluate_path src dst).1.length = manhattan src dst + 1) ∧
    ((b.evaluate_path src dst).1 ≠ [] →
      manhattan src dst + 1 ≤ (b.evaluate_path src dst).1.length) := by
  constructor
  · intro hemp
    exact evaluate_path_manhattan hsrc hdst hemp hne
  · intro hpath
    exact route_manhattan (evaluate_path_success hsrc hpath).1

theorem c5_path_length_manhattan_witness :
    c5Board.inBounds (1, 1) ∧ c5Board.inBounds (2, 2) ∧
    c5Board.colors (1, 1) = some .RED ∧ ((2, 2) : Pos) ≠ (1, 1) ∧
    (((∀ p : Pos, p ≠ (1, 1) → c5Board.inBounds p → c5Board.colors p = none) →
        (c5Board.evaluate_path (1, 1) (2, 2)).1.length =
          manhattan (1, 1) (2, 2) + 1) ∧
      ((c5Board.evaluate_path (1, 1) (2, 2)).1 ≠ [] →
        manhattan (1, 1) (2, 2) + 1 ≤
          (c5Board.evaluate_path (1, 1) (2, 2)).1.length)) :=
  ⟨by decide, by decide, by decide, by decide,
    c5_path_length_manhattan c5Board (1, 1) (2, 2) .RED (by decide) (by decide)
      (by decide) (by decide)⟩

/-- C6: a successful path computation relocates exactly one ball: the target
receives the origin's previous color, the origin becomes empty, and every
other cell's occupancy, the score and the selection are unchanged. -/
theorem c6_move_relocates_one_ball (b : Board) (src dst : Pos)
    (col : BallColor) (hsrc : b.inBounds src) (hocc : b.colors src = some col)
    (hemp : b.colors dst = none)
    (hpath : (b.evaluate_path src dst).1 ≠ []) :
    (b.evaluate_path src dst).2.colors dst = some col ∧
    (b.evaluate_path src dst).2.colors src = none ∧
    (∀ p : Pos, p ≠ src → p ≠ dst →
      (b.evaluate_path src dst).2.colors p = b.colors p) ∧
    (b.evaluate_path src dst).2.score = b.score ∧
    (b.evaluate_path src dst).2.selected_cell = b.selected_cell := by
  obtain ⟨_, _, hboard⟩ := evaluate_path_success hsrc hpath
  have hne : dst ≠ src := by
    intro h
    rw [h, hocc] at hemp
    exact absurd hemp (by simp)
  rw [hboard]
  refine ⟨?_, ?_, ?_, rfl, rfl⟩
  · show upd (upd b.colors dst (b.colors src)) src none dst = some col
    rw [upd_ne _ _ hne, upd_self, hocc]
  · exact upd_self _ _ _
  · intro p hps hpd
    show upd (upd b.colors dst (b.colors src)) src none p = b.colors p
    rw [upd_ne _ _ hps, upd_ne _ _ hpd]

theorem c6_move_relocates_one_ball_witness :
    c6Board.inBounds (1, 1) ∧ c6Board.colors (1, 1) = some .RED ∧
    c6Board.colors (2, 1) = none ∧ (c6Board.evaluate_path (1, 1) (2, 1)).1 ≠ [] ∧
    ((c6Board.evaluate_path (1, 1) (2, 1)).2.colors (2, 1) = some .RED ∧
      (c6Board.evaluate_path (1, 1) (2, 1)).2.colors (1, 1) = none ∧
      (∀ p : Pos, p ≠ (1, 1) → p ≠ (2, 1) →
        (c6Board.evaluate_path (1, 1) (2, 1)).2.colors p = c6Board.colors p) ∧
      (c6Board.evaluate_path (1, 1) (2, 1)).2.score = c6Board.score ∧
      (c6Board.evaluate_path (1, 1) (2, 1)).2.selected_cell =
        c6Board.selected_cell) :=
  ⟨by decide, by decide, by decide, by decide,
    c6_move_relocates_one_ball c6Board (1, 1) (2, 1) .RED (by decide)
      (by decide) (by decide) (by decide)⟩


/-- C7: in the source the clearing code is unreachable — every routed move
raises `TypeError` at the `MoveBall(path=path)` construction (`board.py`
line 146) before `_evaluate_lines` can run, so the program never clears a
run or updates the score (first conjunct, about the source-faithful
handler).  Under the intended event payload (the construction site taken at
its word, as in C1) the claimed behavior holds: a landing that completes a
horizontal run of exactly 5 (and no qualifying vertical run) clears those 5
cells and adds exactly 5 to the score, emitting `LineCompleted` and
`UpdateScore`; when the longest run through the landing cell on each axis
has length at most 4, no cell is cleared, the score is unchanged, and
neither event is emitted. -/
theorem c7_line_clearing (b : Board) (src dst : Pos) (rng : Rng)
    (col : BallColor) (hsrc : b.inBounds src) (hocc : b.colors src = some col)
    (hemp : b.colors dst = none)
    (hpath : (b.evaluate_path src dst).1 ≠ []) :
    b.handle_ball_move_src src dst rng =
      .typeError (b.evaluate_path src dst).2 rng ∧
    (((b.evaluate_path src dst).2.hLine dst).length = 5 →
      ((b.evaluate_path src dst).2.vLine dst).length < 5 →
      ∃ b2, b.handle_ball_move src dst rng =
        some ([.MoveBall (b.evaluate_path src dst).1,
            .LineCompleted ((b.evaluate_path src dst).2.evaluate_lines dst),
            .UpdateScore (b.score + 5)], b2, rng) ∧
        b2.score = b.score + 5 ∧
        (∀ p ∈ (b.evaluate_path src dst).2.hLine dst, b2.colors p = none)) ∧
    (((b.evaluate_path src dst).2.hLine dst).length ≤ 4 →
      ((b.evaluate_path src dst).2.vLine dst).length ≤ 4 →
      ∃ evs b2 r2, b.handle_ball_move src dst rng =
        some (.MoveBall (b.evaluate_path src dst).1 :: evs, b2, r2) ∧
        b2.score = b.score ∧
        (∀ p, ((b.evaluate_path src dst).2.colors p).isSome →
          (b2.colors p).isSome) ∧
        (∀ cells, Event.LineCompleted cells ∉
          Event.MoveBall (b.evaluate_path src dst).1 :: evs) ∧
        (∀ n, Event.UpdateScore n ∉
          Event.MoveBall (b.evaluate_path src dst).1 :: evs)) := by
  have hMIN : MIN_BALLS_IN_LINE = 5 := rfl
  have hscore : (b.evaluate_path src dst).2.score = b.score :=
    (evaluate_path_board_facts hsrc hpath).1
  refine ⟨handle_ball_move_src_raises hpath, ?_, ?_⟩
  · intro h5 hvlt
    have hformed : (b.evaluate_path src dst).2.evaluate_lines dst =
        (b.evaluate_path src dst).2.hLine dst :=
      evaluate_lines_h_only (by omega) (by omega)
    have hfne : (b.evaluate_path src dst).2.evaluate_lines dst ≠ [] := by
      rw [hformed]
      exact List.ne_nil_of_mem (cell_mem_hLine _ _)
    have hlen : ((b.evaluate_path src dst).2.evaluate_lines dst).length = 5 := by
      rw [hformed]
      exact h5
    refine ⟨{ (b.evaluate_path src dst).2 with
        colors := clearCells (b.evaluate_path src dst).2.colors
          ((b.evaluate_path src dst).2.evaluate_lines dst)
        score := (b.evaluate_path src dst).2.score +
          ((b.evaluate_path src dst).2.evaluate_lines dst).length }, ?_, ?_, ?_⟩
    · rw [handle_ball_move_lines hpath hfne, hscore, hlen]
    · show (b.evaluate_path src dst).2.score +
        ((b.evaluate_path src dst).2.evaluate_lines dst).length = b.score + 5
      rw [hscore, hlen]
    · intro p hp
      show clearCells (b.evaluate_path src dst).2.colors
        ((b.evaluate_path src dst).2.evaluate_lines dst) p = none
      exact clearCells_mem (by rw [hformed]; exact hp)
  · intro hhle hvle
    have hformed : (b.evaluate_path src dst).2.evaluate_lines dst = [] :=
      evaluate_lines_none (by omega) (by omega)
    have hE := b1_emptyCount_pos hsrc hpath
    obtain ⟨evs, b2, r2, heq, _, _, _, _, _, hsc, _, hmono, hshape⟩ :=
      @add_balls_spec (b.evaluate_path src dst).2 rng hE
    refine ⟨evs, b2, r2, handle_ball_move_spawn hpath hformed heq, ?_,
      hmono, ?_, ?_⟩
    · rw [hsc, hscore]
    · intro cells hmem
      rcases List.mem_cons.mp hmem with hc | hc
      · exact absurd hc (by simp)
      · rcases hshape _ hc with ⟨p, hp⟩ | hp
        · exact absurd hp (by simp)
        · exact absurd hp (by simp)
    · intro n hmem
      rcases List.mem_cons.mp hmem with hc | hc
      · exact absurd hc (by simp)
      · rcases hshape _ hc with ⟨p, hp⟩ | hp
        · exact absurd hp (by simp)
        · exact absurd hp (by simp)

theorem c7_line_clearing_witness :
    c7Board.handle_ball_move_src (6, 1) (5, 1) (fun _ => 0 : Rng) =
      .typeError (c7Board.evaluate_path (6, 1) (5, 1)).2 (fun _ => 0 : Rng) ∧
    ((c7Board.evaluate_path (6, 1) (5, 1)).2.hLine (5, 1)).length = 5 ∧
    ((c7Board.evaluate_path (6, 1) (5, 1)).2.vLine (5, 1)).length < 5 ∧
    ∃ b2, c7Board.handle_ball_move (6, 1) (5, 1) (fun _ => 0 : Rng) =
      some ([.MoveBall (c7Board.evaluate_path (6, 1) (5, 1)).1,
          .LineCompleted
            ((c7Board.evaluate_path (6, 1) (5, 1)).2.evaluate_lines (5, 1)),
          .UpdateScore (c7Board.score + 5)], b2, (fun _ => 0 : Rng)) ∧
      b2.score = c7Board.score + 5 ∧
      (∀ p ∈ (c7Board.evaluate_path (6, 1) (5, 1)).2.hLine (5, 1),
        b2.colors p = none) :=
  ⟨(c7_line_clearing c7Board (6, 1) (5, 1) (fun _ => 0 : Rng) .RED (by decide)
      (by decide) (by decide) (by decide)).1,
    by decide, by decide,
    (c7_line_clearing c7Board (6, 1) (5, 1) (fun _ => 0 : Rng) .RED (by decide)
      (by decide) (by decide) (by decide)).2.1 (by decide) (by decide)⟩

/-- C8: in the source the spawner call after a move (`board.py` line 164)
is unreachable — the `TypeError` at the `MoveBall` construction on line 146
precedes it on every routed move, so the program never spawns after a move
(first conjunct, about the source-faithful handler).  Under the intended
event payload the claimed behavior holds: after a successful non-scoring
move the ball count grows by exactly `min 3 empties-after-move`, one
`AddBall` per spawned ball, and `GameOver` is emitted exactly when the
board becomes full during that spawn (at most 3 empties before it), after
which no further balls are spawned; after a scoring move no balls are
spawned at all. -/
theorem c8_spawn_after_move (b : Board) (src dst : Pos) (rng : Rng)
    (col : BallColor) (hsrc : b.inBounds src) (hocc : b.colors src = some col)
    (hemp : b.colors dst = none)
    (hpath : (b.evaluate_path src dst).1 ≠ []) :
    b.handle_ball_move_src src dst rng =
      .typeError (b.evaluate_path src dst).2 rng ∧
    ((b.evaluate_path src dst).2.evaluate_lines dst = [] →
      ∃ evs b2 r2, b.handle_ball_move src dst rng =
        some (.MoveBall (b.evaluate_path src dst).1 :: evs, b2, r2) ∧
        b2.ballCount = (b.evaluate_path src dst).2.ballCount +
          min 3 (b.evaluate_path src dst).2.emptyCount ∧
        evs.countP Event.isAddBall =
          min 3 (b.evaluate_path src dst).2.emptyCount ∧
        (Event.GameOver ∈ evs ↔
          (b.evaluate_path src dst).2.emptyCount ≤ 3)) ∧
    ((b.evaluate_path src dst).2.evaluate_lines dst ≠ [] →
      ∃ b2, b.handle_ball_move src dst rng =
        some ([.MoveBall (b.evaluate_path src dst).1,
            .LineCompleted ((b.evaluate_path src dst).2.evaluate_lines dst),
            .UpdateScore ((b.evaluate_path src dst).2.score +
              ((b.evaluate_path src dst).2.evaluate_lines dst).length)],
          b2, rng) ∧
        (∀ p, Event.AddBall p ∉
          ([.MoveBall (b.evaluate_path src dst).1,
            .LineCompleted ((b.evaluate_path src dst).2.evaluate_lines dst),
            .UpdateScore ((b.evaluate_path src dst).2.score +
              ((b.evaluate_path src dst).2.evaluate_lines dst).length)] :
            List Event))) := by
  refine ⟨handle_ball_move_src_raises hpath, ?_, ?_⟩
  · intro hformed
    have hE := b1_emptyCount_pos hsrc hpath
    obtain ⟨evs, b2, r2, heq, hbc, hcnt, hgo, _, _, _, _, _, _⟩ :=
      @add_balls_spec (b.evaluate_path src dst).2 rng hE
    exact ⟨evs, b2, r2, handle_ball_move_spawn hpath hformed heq, hbc, hcnt, hgo⟩
  · intro hformed
    refine ⟨_, handle_ball_move_lines hpath hformed, ?_⟩
    intro p hmem
    simp at hmem

theorem c8_spawn_after_move_witness :
    c8Board.handle_ball_move_src (1, 1) (2, 1) (fun _ => 0 : Rng) =
      .typeError (c8Board.evaluate_path (1, 1) (2, 1)).2 (fun _ => 0 : Rng) ∧
    (c8Board.evaluate_path (1, 1) (2, 1)).2.evaluate_lines (2, 1) = [] ∧
    ∃ evs b2 r2, c8Board.handle_ball_move (1, 1) (2, 1) (fun _ => 0 : Rng) =
      some (.MoveBall (c8Board.evaluate_path (1, 1) (2, 1)).1 :: evs, b2, r2) ∧
      b2.ballCount = (c8Board.evaluate_path (1, 1) (2, 1)).2.ballCount +
        min 3 (c8Board.evaluate_path (1, 1) (2, 1)).2.emptyCount ∧
      evs.countP Event.isAddBall =
        min 3 (c8Board.evaluate_path (1, 1) (2, 1)).2.emptyCount ∧
      (Event.GameOver ∈ evs ↔
        (c8Board.evaluate_path (1, 1) (2, 1)).2.emptyCount ≤ 3) :=
  ⟨(c8_spawn_after_move c8Board (1, 1) (2, 1) (fun _ => 0 : Rng) .RED
      (by decide) (by decide) (by decide) (by decide)).1,
    by decide,
    (c8_spawn_after_move c8Board (1, 1) (2, 1) (fun _ => 0 : Rng) .RED
      (by decide) (by decide) (by decide) (by decide)).2.1 (by decide)⟩

/-- Under the intended (non-crashing) semantics the selection invariant is
maintained: on every board reachable by creation, initialization and
successfully handled actions, `selected_cell` is `None` or references a
cell holding a ball.  The source as written breaks this — see the C9
theorem below. -/
theorem reachable_selInv : ∀ b : Board, ReachableBoard b → SelInv b := by
  intro b h
  induction h with
  | created columns rows =>
    intro s hs
    exact absurd hs (by simp [Board.create])
  | init _ heq ih => exact selInv_init ih heq
  | act _ heq ih => exact selInv_action ih heq

/-- C9: refuted by the source as written.  On a routed move,
`_evaluate_path` has already emptied the origin cell (`board.py` lines
236-237) when the `MoveBall(path=path)` construction at line 146 raises
`TypeError`, and the deselection at line 115 is never reached: the
exception propagates out of `handle_action` with `selected_cell` still
referencing the now-empty origin, so the claimed invariant fails on the
live board.  (Under the intended non-crashing semantics the invariant does
hold: `reachable_selInv` above.) -/
theorem c9_selected_cell_invariant_violation (b : Board) (src : Pos)
    (column row : Nat) (r : Rng) (col : BallColor)
    (hin : b.inBounds (column, row))
    (hemp : b.colors (column, row) = none)
    (hsel : b.selected_cell = some src) (hsrc : b.inBounds src)
    (hocc : b.colors src = some col)
    (hpath : (b.evaluate_path src (column, row)).1 ≠ []) :
    b.handle_action_src column row r =
      .typeError (b.evaluate_path src (column, row)).2 r ∧
    (b.evaluate_path src (column, row)).2.selected_cell = some src ∧
    (b.evaluate_path src (column, row)).2.colors src = none ∧
    ¬ SelInv (b.evaluate_path src (column, row)).2 := by
  obtain ⟨hsc, hselp, hnone⟩ := evaluate_path_board_facts hsrc hpath
  have hselp2 : (b.evaluate_path src (column, row)).2.selected_cell =
      some src := by rw [hselp, hsel]
  refine ⟨handle_action_src_raises hin hemp hsel hpath, hselp2, hnone, ?_⟩
  intro hSI
  have hs := hSI src hselp2
  rw [hnone] at hs
  exact absurd hs (by simp)

theorem c9_selected_cell_invariant_violation_witness :
    c1Board.handle_action_src 2 1 (fun _ => 0 : Rng) =
      .typeError (c1Board.evaluate_path (1, 1) (2, 1)).2 (fun _ => 0 : Rng) ∧
    (c1Board.evaluate_path (1, 1) (2, 1)).2.selected_cell = some (1, 1) ∧
    (c1Board.evaluate_path (1, 1) (2, 1)).2.colors (1, 1) = none ∧
    ¬ SelInv (c1Board.evaluate_path (1, 1) (2, 1)).2 :=
  c9_selected_cell_invariant_violation c1Board (1, 1) 2 1 (fun _ => 0 : Rng)
    .RED (by decide) (by decide) (by decide) (by decide) (by decide)
    (by decide)

/-- C10: in the source the score increment of `_handle_ball_move` is
unreachable — the `TypeError` at the `MoveBall` construction (`board.py`
line 146) fires before lines 148-160 on every routed move (first conjunct,
about the source-faithful handler).  Under the intended event payload the
claimed behavior holds: when the landing cell completes a qualifying run on
both axes, the returned cell collection is the horizontal run followed by
the vertical run, the landing cell occurs twice in it (once per axis), and
the score increment is the horizontal length plus the vertical length,
double-counting the landing cell. -/
theorem c10_intersection_double_count (b : Board) (src dst : Pos) (rng : Rng)
    (col : BallColor) (hsrc : b.inBounds src) (hdst : b.inBounds dst)
    (hocc : b.colors src = some col) (hemp : b.colors dst = none)
    (hpath : (b.evaluate_path src dst).1 ≠ [])
    (hh : 5 ≤ ((b.evaluate_path src dst).2.hLine dst).length)
    (hv : 5 ≤ ((b.evaluate_path src dst).2.vLine dst).length) :
    b.handle_ball_move_src src dst rng =
      .typeError (b.evaluate_path src dst).2 rng ∧
    (b.evaluate_path src dst).2.evaluate_lines dst =
      (b.evaluate_path src dst).2.hLine dst ++
        (b.evaluate_path src dst).2.vLine dst ∧
    ((b.evaluate_path src dst).2.evaluate_lines dst).count dst = 2 ∧
    ∃ b2, b.handle_ball_move src dst rng =
      some ([.MoveBall (b.evaluate_path src dst).1,
          .LineCompleted ((b.evaluate_path src dst).2.evaluate_lines dst),
          .UpdateScore (b.score +
            (((b.evaluate_path src dst).2.hLine dst).length +
              ((b.evaluate_path src dst).2.vLine dst).length))], b2, rng) ∧
      b2.score = b.score +
        (((b.evaluate_path src dst).2.hLine dst).length +
          ((b.evaluate_path src dst).2.vLine dst).length) := by
  have hMIN : MIN_BALLS_IN_LINE = 5 := rfl
  have hscore : (b.evaluate_path src dst).2.score = b.score :=
    (evaluate_path_board_facts hsrc hpath).1
  have hformed := @evaluate_lines_both (b.evaluate_path src dst).2 dst
    (by omega) (by omega)
  have hdst1 : 1 ≤ dst.1 := hdst.1
  have hdst2 : 1 ≤ dst.2 := hdst.2.2.1
  refine ⟨handle_ball_move_src_raises hpath, hformed, ?_, ?_⟩
  · rw [hformed, List.count_append, count_cell_hLine hdst1,
      count_cell_vLine hdst2]
  · have hfne : (b.evaluate_path src dst).2.evaluate_lines dst ≠ [] := by
      rw [hformed]
      intro hc
      obtain ⟨h1, _⟩ := List.append_eq_nil.mp hc
      exact List.ne_nil_of_mem (cell_mem_hLine _ _) h1
    have hlen : ((b.evaluate_path src dst).2.evaluate_lines dst).length =
        ((b.evaluate_path src dst).2.hLine dst).length +
          ((b.evaluate_path src dst).2.vLine dst).length := by
      rw [hformed, List.length_append]
    refine ⟨{ (b.evaluate_path src dst).2 with
        colors := clearCells (b.evaluate_path src dst).2.colors
          ((b.evaluate_path src dst).2.evaluate_lines dst)
        score := (b.evaluate_path src dst).2.score +
          ((b.evaluate_path src dst).2.evaluate_lines dst).length }, ?_, ?_⟩
    · rw [handle_ball_move_lines hpath hfne, hscore, hlen]
    · show (b.evaluate_path src dst).2.score +
        ((b.evaluate_path src dst).2.evaluate_lines dst).length =
          b.score + (((b.evaluate_path src dst).2.hLine dst).length +
            ((b.evaluate_path src dst).2.vLine dst).length)
      rw [hscore, hlen]

theorem c10_intersection_double_count_witness :
    5 ≤ ((c10Board.evaluate_path (2, 1) (2, 2)).2.hLine (2, 2)).length ∧
    5 ≤ ((c10Board.evaluate_path (2, 1) (2, 2)).2.vLine (2, 2)).length ∧
    (c10Board.handle_ball_move_src (2, 1) (2, 2) (fun _ => 0 : Rng) =
        .typeError (c10Board.evaluate_path (2, 1) (2, 2)).2
          (fun _ => 0 : Rng) ∧
      (c10Board.evaluate_path (2, 1) (2, 2)).2.evaluate_lines (2, 2) =
        (c10Board.evaluate_path (2, 1) (2, 2)).2.hLine (2, 2) ++
          (c10Board.evaluate_path (2, 1) (2, 2)).2.vLine (2, 2) ∧
      ((c10Board.evaluate_path (2, 1) (2, 2)).2.evaluate_lines (2, 2)).count
        ((2, 2) : Pos) = 2 ∧
      ∃ b2, c10Board.handle_ball_move (2, 1) (2, 2) (fun _ => 0 : Rng) =
        some ([.MoveBall (c10Board.evaluate_path (2, 1) (2, 2)).1,
            .LineCompleted
              ((c10Board.evaluate_path (2, 1) (2, 2)).2.evaluate_lines (2, 2)),
            .UpdateScore (c10Board.score +
              (((c10Board.evaluate_path (2, 1) (2, 2)).2.hLine (2, 2)).length +
                ((c10Board.evaluate_path (2, 1) (2, 2)).2.vLine (2, 2)).length))],
          b2, (fun _ => 0 : Rng)) ∧
        b2.score = c10Board.score +
          (((c10Board.evaluate_path (2, 1) (2, 2)).2.hLine (2, 2)).length +
            ((c10Board.evaluate_path (2, 1) (2, 2)).2.vLine (2, 2)).length)) :=
  ⟨by decide, by decide,
    c10_intersection_double_count c10Board (2, 1) (2, 2) (fun _ => 0 : Rng)
      .RED (by decide) (by decide) (by decide) (by decide) (by decide)
      (by decide) (by decide)⟩

end Linespy
